import Mathlib

/-!
Verification of the torm TLV serialization codec.

The source file contains two implementations of the codec:
impl A (free functions `typeIndexOf`/`createChunk`/`writeChunk`/`readChunk`/
`serialize`/`deserialize` with tag table Null=1..Date=4, typed arrays 11..18,
String=21, Array=22, Object=23) and impl B (`getTypeCode`/`createChunk`/
`writeChunk`/`readChunk`/`calculateSize`/`TORM.serialize`/`TORM.deserialize`
with tag table Null=1..Object=7, typed arrays 10..17).

JavaScript platform primitives are modelled at the byte/bit level:
  * an ArrayBuffer is a `List Nat` of bytes;
  * `DataView.getUint8/getUint32/getFloat64` and the corresponding setters are
    big-endian (the source never passes the littleEndian flag) and throw a
    RangeError when out of bounds, modelled by `Except`/`Option`;
  * a JS number is identified with its IEEE-754 binary64 bit pattern
    (a `Nat < 2^64`); `setFloat64`/`getFloat64` transport those 8 bytes;
  * a JS string is a sequence of Unicode scalar values; `TextEncoder.encode` /
    `TextDecoder.decode` are a hand-rolled UTF-8 codec;
  * a typed array is its element-buffer byte content together with its kind;
  * a `Date` carries the bit pattern of its time value; `new Date(x)` applies
    the ECMAScript TimeClip/ToIntegerOrInfinity truncation, modelled bitwise
    by `timeClip`;
  * a JS object is its entry sequence in property-enumeration order.

The recursive-descent reader uses an explicit fuel argument to model the
(unbounded) JS call stack; `deserialize` passes `buf.length + 1`, which the
lemmas below show is sufficient for every buffer produced by `serialize`.
-/

namespace Torm

/-- Error outcomes of a decode call: a platform bounds RangeError, the
explicit empty-buffer error of impl B, the unknown-type-code error of impl B,
and exhaustion of the recursion fuel (a model artifact, shown unreachable for
all buffers considered here). -/
inductive DecodeError where
  | rangeError
  | emptyInput
  | unknownTypeTag (t : Nat)
  | outOfFuel
deriving DecidableEq, Repr

/-- Big-endian byte decomposition: `beBytes k n` is the `k`-byte big-endian
encoding of `n % 2^(8*k)`, most significant byte first. -/
def beBytes : Nat → Nat → List Nat
  | 0, _ => []
  | k+1, n => n / 2^(8*k) % 256 :: beBytes k n

/-- Replace the bytes of `buf` starting at `i` with `repl` (in-place write of
a contiguous run into a pre-allocated buffer). -/
def splice (buf : List Nat) (i : Nat) (repl : List Nat) : List Nat :=
  buf.take i ++ repl ++ buf.drop (i + repl.length)

/-- DataView.setUint8: write one byte (value taken mod 256), RangeError out of
bounds. -/
def setU8 (buf : List Nat) (i v : Nat) : Option (List Nat) :=
  if i + 1 ≤ buf.length then some (splice buf i [v % 256]) else none

/-- DataView.setUint32 (big-endian): write 4 bytes, RangeError out of bounds. -/
def setU32 (buf : List Nat) (i n : Nat) : Option (List Nat) :=
  if i + 4 ≤ buf.length then some (splice buf i (beBytes 4 n)) else none

/-- DataView.setFloat64 (big-endian): write the 8 bytes of the double's bit
pattern, RangeError out of bounds. -/
def setF64 (buf : List Nat) (i bits : Nat) : Option (List Nat) :=
  if i + 8 ≤ buf.length then some (splice buf i (beBytes 8 bits)) else none

/-- Uint8Array.prototype.set(src, offset): bulk byte copy, RangeError if the
source does not fit. -/
def setBytes (buf : List Nat) (i : Nat) (bs : List Nat) : Option (List Nat) :=
  if i + bs.length ≤ buf.length then some (splice buf i (bs.map (· % 256))) else none

/-- DataView.getUint8: RangeError out of bounds. -/
def getU8 (buf : List Nat) (i : Nat) : Except DecodeError Nat :=
  if h : i < buf.length then .ok buf[i] else .error .rangeError

/-- DataView.getUint32, big-endian recombination of 4 bytes. -/
def getU32 (buf : List Nat) (i : Nat) : Except DecodeError Nat := do
  let b0 ← getU8 buf i
  let b1 ← getU8 buf (i+1)
  let b2 ← getU8 buf (i+2)
  let b3 ← getU8 buf (i+3)
  pure (b0 * 2^24 + b1 * 2^16 + b2 * 2^8 + b3)

/-- DataView.getFloat64, big-endian recombination of the 8 bytes of the bit
pattern. -/
def getF64 (buf : List Nat) (i : Nat) : Except DecodeError Nat := do
  let b0 ← getU8 buf i
  let b1 ← getU8 buf (i+1)
  let b2 ← getU8 buf (i+2)
  let b3 ← getU8 buf (i+3)
  let b4 ← getU8 buf (i+4)
  let b5 ← getU8 buf (i+5)
  let b6 ← getU8 buf (i+6)
  let b7 ← getU8 buf (i+7)
  pure (b0 * 2^56 + b1 * 2^48 + b2 * 2^40 + b3 * 2^32 +
        b4 * 2^24 + b5 * 2^16 + b6 * 2^8 + b7)

/-- ArrayBuffer.prototype.slice(o, o + len): clamps, never throws. -/
def sliceBuf (buf : List Nat) (o len : Nat) : List Nat :=
  (buf.drop o).take len

/-! ## UTF-8 (TextEncoder / TextDecoder) -/

/-- A Unicode scalar value: below 0x110000 and not a surrogate. -/
def IsScalar (c : Nat) : Bool := c < 0x110000 && !(0xD800 ≤ c && c < 0xE000)

/-- TextEncoder.encode of a single scalar value (canonical UTF-8). -/
def utf8EncodeScalar (c : Nat) : List Nat :=
  if c < 0x80 then [c]
  else if c < 0x800 then [0xC0 + c / 64, 0x80 + c % 64]
  else if c < 0x10000 then [0xE0 + c / 4096, 0x80 + c / 64 % 64, 0x80 + c % 64]
  else [0xF0 + c / 262144, 0x80 + c / 4096 % 64, 0x80 + c / 64 % 64, 0x80 + c % 64]

/-- TextEncoder.encode over a scalar-value sequence. -/
def utf8Encode : List Nat → List Nat
  | [] => []
  | c :: rest => utf8EncodeScalar c ++ utf8Encode rest

/-- Is `b` a UTF-8 continuation byte. -/
def contB (b : Nat) : Bool := 0x80 ≤ b && b < 0xC0

/-- Decode one UTF-8 sequence: given the lead byte `b` and the remaining
bytes, return the scalar value (or U+FFFD on malformed input, as the
replacing TextDecoder does) and the number of extra bytes consumed. -/
def utf8DecodeOne (b : Nat) (rest : List Nat) : Nat × Nat :=
  if b < 0x80 then (b, 0)
  else if b < 0xC2 then (0xFFFD, 0)
  else if b < 0xE0 then
    match rest with
    | b1 :: _ =>
      if contB b1 then ((b - 0xC0) * 64 + (b1 - 0x80), 1) else (0xFFFD, 0)
    | _ => (0xFFFD, 0)
  else if b < 0xF0 then
    match rest with
    | b1 :: b2 :: _ =>
      if contB b1 && contB b2 then
        let c := (b - 0xE0) * 4096 + (b1 - 0x80) * 64 + (b2 - 0x80)
        if 0x800 ≤ c && !(0xD800 ≤ c && c < 0xE000) then (c, 2) else (0xFFFD, 2)
      else (0xFFFD, 0)
    | _ => (0xFFFD, 0)
  else if b < 0xF5 then
    match rest with
    | b1 :: b2 :: b3 :: _ =>
      if contB b1 && contB b2 && contB b3 then
        let c := (b - 0xF0) * 262144 + (b1 - 0x80) * 4096 +
                 (b2 - 0x80) * 64 + (b3 - 0x80)
        if 0x10000 ≤ c && c < 0x110000 then (c, 3) else (0xFFFD, 3)
      else (0xFFFD, 0)
    | _ => (0xFFFD, 0)
  else (0xFFFD, 0)

/-- TextDecoder.decode worker; the fuel is an upper bound on the number of
decoded code points (each step consumes at least one byte). -/
def utf8DecodeAux : Nat → List Nat → List Nat
  | 0, _ => []
  | _, [] => []
  | fuel+1, b :: rest =>
    let p := utf8DecodeOne b rest
    p.1 :: utf8DecodeAux fuel (rest.drop p.2)

/-- TextDecoder.decode. -/
def utf8Decode (bs : List Nat) : List Nat := utf8DecodeAux bs.length bs

/-! ## Date time values (ECMAScript TimeClip at the bit level) -/

/-- The canonical NaN bit pattern stored for an invalid Date. -/
def nanBits : Nat := 0x7FF8000000000000

/-- Bit pattern of the double 8.64e15, the largest legal absolute time value. -/
def maxTimeBits : Nat := 1075 * 2^52 + (8640000000000000 - 2^52)

/-- `new Date(x)` truncation of the time value, computed on the IEEE-754
binary64 bit pattern: non-finite or out-of-range values become NaN, values of
magnitude below one become +0, and fractional mantissa bits are truncated
toward zero (ES TimeClip composed with ToIntegerOrInfinity). -/
def timeClip (bits : Nat) : Nat :=
  let b := bits % 2^64
  let e := b / 2^52 % 2^11
  if e = 2047 then nanBits
  else if maxTimeBits < b % 2^63 then nanBits
  else if e < 1023 then 0
  else if 1075 ≤ e then b
  else b / 2^(1075 - e) * 2^(1075 - e)

/-- Is the bit pattern a finite double (exponent field not all ones). -/
def finiteBits (bits : Nat) : Bool := decide (bits / 2^52 % 2^11 ≠ 2047)

/-! ## The value domain -/

/-- The eight typed-array element kinds. -/
inductive TAKind where
  | i8 | i16 | i32 | u8 | u16 | u32 | f32 | f64
deriving DecidableEq, Repr

/-- Element width in bytes of a typed-array kind. -/
def elemSize : TAKind → Nat
  | .i8 => 1
  | .i16 => 2
  | .i32 => 4
  | .u8 => 1
  | .u16 => 2
  | .u32 => 4
  | .f32 => 4
  | .f64 => 8

/-- The JS value domain handled by the codec. `num` and `date` carry IEEE-754
binary64 bit patterns, `str` a sequence of Unicode scalar values, `tarr` the
raw element-buffer bytes of a typed array, and `obj` its string-keyed entries
in property-enumeration order. -/
inductive Value where
  | null
  | undef
  | func
  | bool (b : Bool)
  | num (bits : Nat)
  | str (cs : List Nat)
  | date (bits : Nat)
  | tarr (k : TAKind) (bs : List Nat)
  | arr (xs : List Value)
  | obj (kvs : List (List Nat × Value))

mutual

def beqV : Value → Value → Bool
  | .null, .null => true
  | .undef, .undef => true
  | .func, .func => true
  | .bool a, .bool b => a == b
  | .num a, .num b => a == b
  | .str a, .str b => a == b
  | .date a, .date b => a == b
  | .tarr k a, .tarr k2 b => k == k2 && a == b
  | .arr xs, .arr ys => beqL xs ys
  | .obj ps, .obj qs => beqP ps qs
  | _, _ => false

def beqL : List Value → List Value → Bool
  | [], [] => true
  | v :: vs, w :: ws => beqV v w && beqL vs ws
  | _, _ => false

def beqP : List (List Nat × Value) → List (List Nat × Value) → Bool
  | [], [] => true
  | (k, v) :: ps, (k2, w) :: qs => k == k2 && beqV v w && beqP ps qs
  | _, _ => false

end

mutual

theorem beqV_iff : ∀ v w, beqV v w = true ↔ v = w
  | .null, w => by cases w <;> simp [beqV]
  | .undef, w => by cases w <;> simp [beqV]
  | .func, w => by cases w <;> simp [beqV]
  | .bool a, w => by cases w <;> simp [beqV]
  | .num a, w => by cases w <;> simp [beqV]
  | .str a, w => by cases w <;> simp [beqV]
  | .date a, w => by cases w <;> simp [beqV]
  | .tarr k a, w => by cases w <;> simp [beqV]
  | .arr xs, w => by
      cases w <;> simp [beqV]
      exact beqL_iff xs _
  | .obj ps, w => by
      cases w <;> simp [beqV]
      exact beqP_iff ps _

theorem beqL_iff : ∀ xs ys, beqL xs ys = true ↔ xs = ys
  | [], ys => by cases ys <;> simp [beqL]
  | x :: xs, ys => by
      cases ys with
      | nil => simp [beqL]
      | cons y ys => simp [beqL, beqV_iff x y, beqL_iff xs ys]

theorem beqP_iff : ∀ ps qs, beqP ps qs = true ↔ ps = qs
  | [], qs => by cases qs <;> simp [beqP]
  | (k, v) :: ps, qs => by
      cases qs with
      | nil => simp [beqP]
      | cons q qs =>
        obtain ⟨k2, w⟩ := q
        simp [beqP, beqV_iff v w, beqP_iff ps qs]

end

instance : DecidableEq Value := fun v w =>
  decidable_of_iff (beqV v w = true) (beqV_iff v w)

instance {ε α : Type} [DecidableEq ε] [DecidableEq α] :
    DecidableEq (Except ε α) := fun a b =>
  match a, b with
  | .ok x, .ok y =>
    if h : x = y then .isTrue (by rw [h])
    else .isFalse (fun he => h (Except.ok.inj he))
  | .error x, .error y =>
    if h : x = y then .isTrue (by rw [h])
    else .isFalse (fun he => h (Except.error.inj he))
  | .ok _, .error _ => .isFalse nofun
  | .error _, .ok _ => .isFalse nofun

/-! ## Shared helpers over values -/

mutual

/-- The value a round trip reproduces: `undefined` and function values encode
as the `Null` chunk and therefore come back as `null` (recursively); all other
values are unchanged. -/
def normalize : Value → Value
  | .null => .null
  | .undef => .null
  | .func => .null
  | .bool b => .bool b
  | .num bits => .num bits
  | .str cs => .str cs
  | .date bits => .date bits
  | .tarr k bs => .tarr k bs
  | .arr xs => .arr (normalizeL xs)
  | .obj kvs => .obj (normalizeP kvs)

def normalizeL : List Value → List Value
  | [] => []
  | v :: vs => normalize v :: normalizeL vs

def normalizeP : List (List Nat × Value) → List (List Nat × Value)
  | [] => []
  | (k, v) :: ps => (k, normalize v) :: normalizeP ps

end

/-- Are all keys in the list pairwise distinct. -/
def nodupKeys : List (List Nat) → Bool
  | [] => true
  | k :: ks => !ks.contains k && nodupKeys ks

/-- Is the string well formed: scalar values only, UTF-8 length below 2^32. -/
def WfStr (cs : List Nat) : Bool :=
  cs.all IsScalar && decide ((utf8Encode cs).length < 2^32)

mutual

/-- The supported domain of the codec: numbers and dates are 64-bit patterns
(dates moreover finite, in range and integral, i.e. fixed by `timeClip`),
strings are scalar sequences, typed arrays hold whole elements of byte values,
declared lengths and counts fit the 4-byte prefix, and object keys are
distinct well-formed strings. -/
def Wf : Value → Bool
  | .null => true
  | .undef => true
  | .func => true
  | .bool _ => true
  | .num bits => decide (bits < 2^64)
  | .str cs => WfStr cs
  | .date bits => decide (bits < 2^64) && finiteBits bits && timeClip bits == bits
  | .tarr k bs =>
      decide (bs.length % elemSize k = 0) && decide (bs.length < 2^32) &&
      bs.all (· < 256)
  | .arr xs => decide (xs.length < 2^32) && WfL xs
  | .obj kvs =>
      decide (kvs.length < 2^32) && nodupKeys (kvs.map Prod.fst) && WfP kvs

def WfL : List Value → Bool
  | [] => true
  | v :: vs => Wf v && WfL vs

def WfP : List (List Nat × Value) → Bool
  | [] => true
  | (k, v) :: ps => WfStr k && Wf v && WfP ps

end

mutual

/-- Nesting depth of a value, used to bound the reader's recursion fuel. -/
def depth : Value → Nat
  | .null => 1
  | .undef => 1
  | .func => 1
  | .bool _ => 1
  | .num _ => 1
  | .str _ => 1
  | .date _ => 1
  | .tarr _ _ => 1
  | .arr xs => 1 + depthL xs
  | .obj kvs => 1 + depthP kvs

def depthL : List Value → Nat
  | [] => 0
  | v :: vs => max (depth v) (depthL vs)

def depthP : List (List Nat × Value) → Nat
  | [] => 0
  | (_, v) :: ps => max (depth v) (depthP ps)

end

/-- The string a decoded chunk contributes as a property key (`obj[key] = v`).
Decoded keys are always `String` chunks on the buffers considered here; the
JS string coercion of other values is not modelled further. -/
def keyOf : Value → List Nat
  | .str k => k
  | _ => []

/-- `obj[k] = v` on an insertion-ordered entry list: overwrite an existing
key in place, else append. -/
def objInsert (kvs : List (List Nat × Value)) (k : List Nat) (v : Value) :
    List (List Nat × Value) :=
  match kvs with
  | [] => [(k, v)]
  | (k0, v0) :: rest =>
    if k0 = k then (k0, v) :: rest else (k0, v0) :: objInsert rest k v

/-- The declared length/count a chunk for this value carries on the wire. -/
def declLen : Value → Nat
  | .str cs => (utf8Encode cs).length
  | .tarr _ bs => bs.length
  | .arr xs => xs.length
  | .obj kvs => kvs.length
  | _ => 0

/-! ## Tag tables -/

/-- The TYPES tag table shape shared by both implementations. -/
structure TypeTable where
  Null : Nat
  Boolean : Nat
  Number : Nat
  Date : Nat
  Int8Array : Nat
  Int16Array : Nat
  Int32Array : Nat
  Uint8Array : Nat
  Uint16Array : Nat
  Uint32Array : Nat
  Float32Array : Nat
  Float64Array : Nat
  String : Nat
  Array : Nat
  Object : Nat

/-- The tag a table assigns to a typed-array kind. -/
def TypeTable.tagOfKind (tbl : TypeTable) : TAKind → Nat
  | .i8 => tbl.Int8Array
  | .i16 => tbl.Int16Array
  | .i32 => tbl.Int32Array
  | .u8 => tbl.Uint8Array
  | .u16 => tbl.Uint16Array
  | .u32 => tbl.Uint32Array
  | .f32 => tbl.Float32Array
  | .f64 => tbl.Float64Array

/-- The typed-array kind a tag names in a table, if any (the
TYPED_ARRAY_TYPES lookup of impl B and the typed-array switch cases of
impl A). -/
def kindOfTag (tbl : TypeTable) (t : Nat) : Option TAKind :=
  if t = tbl.Int8Array then some .i8
  else if t = tbl.Int16Array then some .i16
  else if t = tbl.Int32Array then some .i32
  else if t = tbl.Uint8Array then some .u8
  else if t = tbl.Uint16Array then some .u16
  else if t = tbl.Uint32Array then some .u32
  else if t = tbl.Float32Array then some .f32
  else if t = tbl.Float64Array then some .f64
  else none

/-- Construct a typed array from sliced bytes (`new Ctor(slice)`): RangeError
when the byte length is not a multiple of the element size. -/
def mkTyped (k : TAKind) (sub : List Nat) : Except DecodeError Value :=
  if sub.length % elemSize k = 0 then .ok (.tarr k sub) else .error .rangeError

/-! ## Implementation A -/

namespace ImplA

/-- The TYPES table of impl A. -/
def TYPES : TypeTable :=
  { Null := 1, Boolean := 2, Number := 3, Date := 4,
    Int8Array := 11, Int16Array := 12, Int32Array := 13,
    Uint8Array := 14, Uint16Array := 15, Uint32Array := 16,
    Float32Array := 17, Float64Array := 18,
    String := 21, Array := 22, Object := 23 }

/-- `typeIndexOf`: the instanceof/typeof ladder of impl A. Functions, `null`
and `undefined` fall into the first branch; nothing reaches the final
`return TYPES.Null` for values of this domain. -/
def typeIndexOf : Value → Nat
  | .func => TYPES.Null
  | .null => TYPES.Null
  | .undef => TYPES.Null
  | .tarr k _ => TYPES.tagOfKind k
  | .arr _ => TYPES.Array
  | .date _ => TYPES.Date
  | .num _ => TYPES.Number
  | .bool _ => TYPES.Boolean
  | .obj _ => TYPES.Object
  | .str _ => TYPES.String

mutual

/-- The payload slot of a `CreateChunk`: either the original value (scalar
and typed-array chunks) or the list of child chunks that replaces it
(Array/Object chunks, with Object flattened to alternating key/value
chunks). -/
inductive ChunkVal where
  | raw (v : Value)
  | kids (cs : List Chunk)

/-- The `CreateChunk` record of impl A: exact byte size, declared
length/count, payload, optional UTF-8 `subBuffer`, and tag. -/
inductive Chunk where
  | mk (byteLength : Nat) (length : Nat) (value : ChunkVal)
       (subBuffer : Option (List Nat)) (typeIndex : Nat)

end

def Chunk.byteLength : Chunk → Nat
  | .mk b _ _ _ _ => b

def Chunk.length : Chunk → Nat
  | .mk _ l _ _ _ => l

def Chunk.value : Chunk → ChunkVal
  | .mk _ _ v _ _ => v

def Chunk.subBuffer : Chunk → Option (List Nat)
  | .mk _ _ _ s _ => s

def Chunk.typeIndex : Chunk → Nat
  | .mk _ _ _ _ t => t

/-- Sum of the `byteLength` annotations of a chunk list (the running
`byteLength += chunk.byteLength` accumulation of impl A's composite cases). -/
def sumBytes : List Chunk → Nat
  | [] => 0
  | c :: cs => c.byteLength + sumBytes cs

/-- The `TYPES.String` case body of impl A's `createChunk` (also what the
forced `createChunk(s, TYPES.String)` call on an object key executes). -/
def mkStringChunk (cs : List Nat) : Chunk :=
  let sub := utf8Encode cs
  .mk (1 + 4 + sub.length) sub.length (.raw (.str cs)) (some sub) TYPES.String

mutual

/-- `createChunk` of impl A. The source's optional `typeIndex` parameter is
either defaulted (`typeIndexOf`) or forced to `TYPES.String` on a string key,
where the two agree, so the dispatch is written directly on the value. -/
def createChunk : Value → Chunk
  | .null => .mk 1 0 (.raw .null) none TYPES.Null
  | .undef => .mk 1 0 (.raw .undef) none TYPES.Null
  | .func => .mk 1 0 (.raw .func) none TYPES.Null
  | .bool b => .mk (1 + 1) 0 (.raw (.bool b)) none TYPES.Boolean
  | .num bits => .mk (1 + 8) 0 (.raw (.num bits)) none TYPES.Number
  | .date bits => .mk (1 + 8) 0 (.raw (.date bits)) none TYPES.Date
  | .tarr k bs =>
      .mk (1 + 4 + bs.length) bs.length (.raw (.tarr k bs)) none
        (TYPES.tagOfKind k)
  | .str cs => mkStringChunk cs
  | .arr xs =>
      let kids := createChunkList xs
      .mk (1 + 4 + sumBytes kids) xs.length (.kids kids) none TYPES.Array
  | .obj kvs =>
      let kids := createChunkPairs kvs
      .mk (1 + 4 + sumBytes kids) kvs.length (.kids kids) none TYPES.Object

def createChunkList : List Value → List Chunk
  | [] => []
  | v :: vs => createChunk v :: createChunkList vs

def createChunkPairs : List (List Nat × Value) → List Chunk
  | [] => []
  | (k, v) :: ps => mkStringChunk k :: createChunk v :: createChunkPairs ps

end

mutual

/-- `writeChunk` of impl A: tag byte, then the case payload, threading the
offset; `none` models a platform RangeError (shown unreachable under the
exact-size allocation). Case combinations the encoder never produces write
nothing beyond the tag. -/
def writeChunk : Chunk → List Nat → Nat → Option (List Nat × Nat)
  | .mk _ len val sub t, buf, offset => do
    let buf1 ← setU8 buf offset t
    let o := offset + 1
    if t = TYPES.Null then
      some (buf1, o)
    else if t = TYPES.Boolean then
      match val with
      | .raw (.bool b) => do
        let buf2 ← setU8 buf1 o (if b then 0xFF else 0x00)
        some (buf2, o + 1)
      | _ => some (buf1, o)
    else if t = TYPES.Number then
      match val with
      | .raw (.num bits) => do
        let buf2 ← setF64 buf1 o bits
        some (buf2, o + 8)
      | _ => some (buf1, o)
    else if TYPES.Int8Array ≤ t ∧ t ≤ TYPES.Float64Array then
      match val with
      | .raw (.tarr _ bs) => do
        let buf2 ← setU32 buf1 o len
        let buf3 ← setBytes buf2 (o + 4) bs
        some (buf3, o + 4 + len)
      | _ => some (buf1, o)
    else if t = TYPES.String then do
      let buf2 ← setU32 buf1 o len
      let buf3 ← setBytes buf2 (o + 4) (sub.getD [])
      some (buf3, o + 4 + len)
    else if t = TYPES.Array ∨ t = TYPES.Object then
      match val with
      | .kids cs => do
        let buf2 ← setU32 buf1 o len
        writeChunkList cs buf2 (o + 4)
      | .raw _ => do
        let buf2 ← setU32 buf1 o len
        some (buf2, o + 4)
    else if t = TYPES.Date then
      match val with
      | .raw (.date bits) => do
        let buf2 ← setF64 buf1 o bits
        some (buf2, o + 8)
      | _ => some (buf1, o)
    else
      some (buf1, o)

def writeChunkList (cs : List Chunk) (buf : List Nat) (offset : Nat) :
    Option (List Nat × Nat) :=
  match cs with
  | [] => some (buf, offset)
  | c :: rest => do
    let (buf1, o1) ← writeChunk c buf offset
    writeChunkList rest buf1 o1

end

/-- The `ReadChunk` record of impl A. -/
structure ReadChunk where
  typeIndex : Nat
  value : Value
  length : Nat
  offset : Nat
deriving DecidableEq

/-- The Array loop of impl A's `readChunk`: read `count` items in sequence,
threading each item's returned offset. -/
def readList (rd : Nat → Except DecodeError ReadChunk) :
    Nat → Nat → Except DecodeError (List Value × Nat)
  | 0, offset => .ok ([], offset)
  | c+1, offset => do
    let item ← rd offset
    let p ← readList rd c item.offset
    .ok (item.value :: p.1, p.2)

/-- The Object loop of impl A's `readChunk`: read `count` key/value chunk
pairs, inserting each into the accumulated object. -/
def readPairs (rd : Nat → Except DecodeError ReadChunk) :
    Nat → Nat → List (List Nat × Value) →
    Except DecodeError (List (List Nat × Value) × Nat)
  | 0, offset, acc => .ok (acc, offset)
  | c+1, offset, acc => do
    let key ← rd offset
    let val ← rd key.offset
    readPairs rd c val.offset (objInsert acc (keyOf key.value) val.value)

/-- The body of impl A's `readChunk` after the tag byte has been read
(hoisted into its own definition; `rd` is the recursive reader for child
chunks). Tags at or above `TYPES.Int8Array` carry a 4-byte length; tags up to
`TYPES.String` slice that many bytes. Unregistered tags (0, 5..10, 19, 20,
≥ 24) leave `value` at its `null` initialisation and succeed. -/
def readTagged (rd : Nat → Except DecodeError ReadChunk) (buf : List Nat)
    (typeIndex : Nat) (o1 : Nat) : Except DecodeError ReadChunk := do
    if TYPES.Int8Array ≤ typeIndex then do
      let length ← getU32 buf o1
      let o2 := o1 + 4
      if typeIndex ≤ TYPES.String then do
        let sub := sliceBuf buf o2 length
        let o3 := o2 + length
        if typeIndex = TYPES.String then
          pure ⟨typeIndex, .str (utf8Decode sub), length, o3⟩
        else
          match kindOfTag TYPES typeIndex with
          | some k => do
            let v ← mkTyped k sub
            pure ⟨typeIndex, v, length, o3⟩
          | none => pure ⟨typeIndex, .null, length, o3⟩
      else if typeIndex = TYPES.Array then do
        let p ← readList rd length o2
        pure ⟨typeIndex, .arr p.1, length, p.2⟩
      else if typeIndex = TYPES.Object then do
        let p ← readPairs rd length o2 []
        pure ⟨typeIndex, .obj p.1, length, p.2⟩
      else
        pure ⟨typeIndex, .null, length, o2⟩
    else
      if typeIndex = TYPES.Null then
        pure ⟨typeIndex, .null, 0, o1⟩
      else if typeIndex = TYPES.Boolean then do
        let b ← getU8 buf o1
        pure ⟨typeIndex, .bool (b != 0), 0, o1 + 1⟩
      else if typeIndex = TYPES.Number then do
        let bits ← getF64 buf o1
        pure ⟨typeIndex, .num bits, 0, o1 + 8⟩
      else if typeIndex = TYPES.Date then do
        let bits ← getF64 buf o1
        pure ⟨typeIndex, .date (timeClip bits), 0, o1 + 8⟩
      else
        pure ⟨typeIndex, .null, 0, o1⟩

/-- `readChunk` of impl A: read the tag byte, then dispatch on it. The fuel
argument models the JS call stack. -/
def readChunk : Nat → List Nat → Nat → Except DecodeError ReadChunk
  | 0, _, _ => .error .outOfFuel
  | fuel+1, buf, offset0 => do
    let typeIndex ← getU8 buf offset0
    readTagged (fun o => readChunk fuel buf o) buf typeIndex (offset0 + 1)

/-- `serialize` of impl A: build the chunk tree, allocate exactly
`byteLength` bytes, write from offset 0. -/
def serialize (v : Value) : Option (List Nat) := do
  let chunk := createChunk v
  let buffer := List.replicate chunk.byteLength 0
  let p ← writeChunk chunk buffer 0
  some p.1

/-- `deserialize` of impl A: read one chunk from offset 0 and discard the
final cursor. There is no empty-buffer or trailing-bytes check. -/
def deserialize (buf : List Nat) : Except DecodeError Value := do
  let chunk ← readChunk (buf.length + 1) buf 0
  pure chunk.value

end ImplA

/-! ## Implementation B -/

namespace ImplB

/-- The TYPES table of impl B. -/
def TYPES : TypeTable :=
  { Null := 1, Boolean := 2, Number := 3, Date := 4,
    String := 5, Array := 6, Object := 7,
    Int8Array := 10, Int16Array := 11, Int32Array := 12,
    Uint8Array := 13, Uint16Array := 14, Uint32Array := 15,
    Float32Array := 16, Float64Array := 17 }

/-- `getTypeCode` of impl B. Functions match none of the tests (`typeof` is
not `'object'` for them) and fall through to the final `return TYPES.Null`. -/
def getTypeCode : Value → Nat
  | .null => TYPES.Null
  | .undef => TYPES.Null
  | .bool _ => TYPES.Boolean
  | .num _ => TYPES.Number
  | .str _ => TYPES.String
  | .date _ => TYPES.Date
  | .arr _ => TYPES.Array
  | .tarr k _ => TYPES.tagOfKind k
  | .obj _ => TYPES.Object
  | .func => TYPES.Null

mutual

/-- The `data` slot of an impl B `Chunk`: absent, raw bytes (String and typed
arrays), or child chunks (Array, and Object flattened to alternating
key/value chunks). -/
inductive ChunkData where
  | noData
  | bytes (bs : List Nat)
  | kids (cs : List Chunk)

/-- The `Chunk` record of impl B: tag, declared length/count, optional data,
and optional numeric `value` (the Boolean payload byte or the Number/Date
bit pattern). -/
inductive Chunk where
  | mk (type : Nat) (length : Nat) (data : ChunkData) (value : Option Nat)

end

def Chunk.type : Chunk → Nat
  | .mk t _ _ _ => t

def Chunk.length : Chunk → Nat
  | .mk _ l _ _ => l

def Chunk.data : Chunk → ChunkData
  | .mk _ _ d _ => d

def Chunk.value : Chunk → Option Nat
  | .mk _ _ _ v => v

/-- The `TYPES.String` case body of impl B's `createChunk` (also what the
`createChunk(key)` call on an object key executes). -/
def mkStringChunk (cs : List Nat) : Chunk :=
  let data := utf8Encode cs
  .mk TYPES.String data.length (.bytes data) none

/-- `entries.length` of a chunk list. -/
def lengthC : List Chunk → Nat
  | [] => 0
  | _ :: cs => 1 + lengthC cs

mutual

/-- `createChunk` of impl B. `getTypeCode` is total, so the trailing
`throw new Error('Unsupported value')` is unreachable. Booleans store their
payload byte, Numbers their bit pattern, Dates `getTime()`'s bit pattern. -/
def createChunk : Value → Chunk
  | .null => .mk TYPES.Null 0 .noData none
  | .undef => .mk TYPES.Null 0 .noData none
  | .func => .mk TYPES.Null 0 .noData none
  | .bool b => .mk TYPES.Boolean 0 .noData (some (if b then 0xFF else 0x00))
  | .num bits => .mk TYPES.Number 0 .noData (some bits)
  | .date bits => .mk TYPES.Date 0 .noData (some bits)
  | .str cs => mkStringChunk cs
  | .tarr k bs => .mk (TYPES.tagOfKind k) bs.length (.bytes bs) none
  | .arr xs =>
      let items := createChunkList xs
      .mk TYPES.Array xs.length (.kids items) none
  | .obj kvs =>
      let entries := createChunkPairs kvs
      .mk TYPES.Object (lengthC entries / 2) (.kids entries) none

def createChunkList : List Value → List Chunk
  | [] => []
  | v :: vs => createChunk v :: createChunkList vs

def createChunkPairs : List (List Nat × Value) → List Chunk
  | [] => []
  | (k, v) :: ps => mkStringChunk k :: createChunk v :: createChunkPairs ps

end

mutual

/-- `writeChunk` of impl B: tag byte; scalar payloads; otherwise the 4-byte
length then raw bytes or recursive child writes. A `bytes` chunk advances by
the declared `length` field (equal to the data length for encoder-built
chunks). -/
def writeChunk : Chunk → List Nat → Nat → Option (List Nat × Nat)
  | .mk t len dat val, buf, offset => do
    let buf1 ← setU8 buf offset t
    let o := offset + 1
    if t = TYPES.Null then
      some (buf1, o)
    else if t = TYPES.Boolean then do
      let buf2 ← setU8 buf1 o (val.getD 0)
      some (buf2, o + 1)
    else if t = TYPES.Number then do
      let buf2 ← setF64 buf1 o (val.getD 0)
      some (buf2, o + 8)
    else if t = TYPES.Date then do
      let buf2 ← setF64 buf1 o (val.getD 0)
      some (buf2, o + 8)
    else do
      let buf2 ← setU32 buf1 o len
      let o2 := o + 4
      if (kindOfTag TYPES t).isSome ∨ t = TYPES.String then
        match dat with
        | .bytes bs => do
          let buf3 ← setBytes buf2 o2 bs
          some (buf3, o2 + len)
        | _ => do
          let buf3 ← setBytes buf2 o2 []
          some (buf3, o2 + len)
      else
        match dat with
        | .kids cs => writeChunkList cs buf2 o2
        | _ => some (buf2, o2)

def writeChunkList : List Chunk → List Nat → Nat → Option (List Nat × Nat)
  | [], buf, offset => some (buf, offset)
  | c :: rest, buf, offset => do
    let p ← writeChunk c buf offset
    writeChunkList rest p.1 p.2

end

mutual

/-- `calculateSize` of impl B: a pure structural fold over the chunk tree. -/
def calculateSize : Chunk → Nat
  | .mk t len dat _ =>
    if t = TYPES.Null then 1
    else if t = TYPES.Boolean then 2
    else if t = TYPES.Number ∨ t = TYPES.Date then 9
    else if (kindOfTag TYPES t).isSome ∨ t = TYPES.String then 1 + 4 + len
    else if t = TYPES.Array ∨ t = TYPES.Object then
      match dat with
      | .kids cs => 1 + 4 + calculateSizeList cs
      | _ => 1 + 4
    else 0

def calculateSizeList : List Chunk → Nat
  | [] => 0
  | c :: cs => calculateSize c + calculateSizeList cs

end

/-- The `ReadResult` record of impl B. -/
structure ReadResult where
  value : Value
  offset : Nat
deriving DecidableEq

/-- The Array loop of impl B's `readChunk`. -/
def readList (rd : Nat → Except DecodeError ReadResult) :
    Nat → Nat → Except DecodeError (List Value × Nat)
  | 0, offset => .ok ([], offset)
  | c+1, offset => do
    let item ← rd offset
    let p ← readList rd c item.offset
    .ok (item.value :: p.1, p.2)

/-- The Object loop of impl B's `readChunk`. -/
def readPairs (rd : Nat → Except DecodeError ReadResult) :
    Nat → Nat → List (List Nat × Value) →
    Except DecodeError (List (List Nat × Value) × Nat)
  | 0, offset, acc => .ok (acc, offset)
  | c+1, offset, acc => do
    let key ← rd offset
    let val ← rd key.offset
    readPairs rd c val.offset (objInsert acc (keyOf key.value) val.value)

/-- The body of impl B's `readChunk` after the tag byte has been read
(hoisted into its own definition; `rd` is the recursive reader). Fixed-size
scalars first; otherwise the 4-byte length is read *before* the tag is
checked against the composite tags, and an unregistered tag then raises the
Unknown-type-code error. -/
def readTagged (rd : Nat → Except DecodeError ReadResult) (buf : List Nat)
    (type : Nat) (o1 : Nat) : Except DecodeError ReadResult := do
    if type = TYPES.Null then
      pure ⟨.null, o1⟩
    else if type = TYPES.Boolean then do
      let b ← getU8 buf o1
      pure ⟨.bool (b != 0), o1 + 1⟩
    else if type = TYPES.Number then do
      let bits ← getF64 buf o1
      pure ⟨.num bits, o1 + 8⟩
    else if type = TYPES.Date then do
      let bits ← getF64 buf o1
      pure ⟨.date (timeClip bits), o1 + 8⟩
    else do
      let length ← getU32 buf o1
      let o2 := o1 + 4
      if (kindOfTag TYPES type).isSome ∨ type = TYPES.String then do
        let slice := sliceBuf buf o2 length
        let o3 := o2 + length
        if type = TYPES.String then
          pure ⟨.str (utf8Decode slice), o3⟩
        else
          match kindOfTag TYPES type with
          | some k => do
            let v ← mkTyped k slice
            pure ⟨v, o3⟩
          | none => .error .rangeError
      else if type = TYPES.Array then do
        let p ← readList rd length o2
        pure ⟨.arr p.1, p.2⟩
      else if type = TYPES.Object then do
        let p ← readPairs rd length o2 []
        pure ⟨.obj p.1, p.2⟩
      else
        .error (.unknownTypeTag type)

/-- `readChunk` of impl B: read the tag byte, then dispatch on it. The fuel
argument models the JS call stack. -/
def readChunk : Nat → List Nat → Nat → Except DecodeError ReadResult
  | 0, _, _ => .error .outOfFuel
  | fuel+1, buf, offset0 => do
    let type ← getU8 buf offset0
    readTagged (fun o => readChunk fuel buf o) buf type (offset0 + 1)

/-- `TORM.serialize` of impl B: build the chunk tree, compute its size,
allocate exactly once, write from offset 0. -/
def serialize (v : Value) : Option (List Nat) := do
  let chunk := createChunk v
  let size := calculateSize chunk
  let buffer := List.replicate size 0
  let p ← writeChunk chunk buffer 0
  some p.1

/-- `TORM.deserialize` of impl B: explicit EmptyInput check, then one chunk
from offset 0, final cursor discarded. -/
def deserialize (buf : List Nat) : Except DecodeError Value := do
  if buf.length = 0 then
    .error .emptyInput
  else do
    let r ← readChunk (buf.length + 1) buf 0
    pure r.value

end ImplB

/-! ## Buffer toolkit lemmas -/

theorem splice_length (buf : List Nat) (i : Nat) (repl : List Nat)
    (h : i + repl.length ≤ buf.length) :
    (splice buf i repl).length = buf.length := by
  simp [splice]
  omega

theorem splice_splice (buf : List Nat) (i : Nat) (r1 r2 : List Nat)
    (h1 : i ≤ buf.length) :
    splice (splice buf i r1) (i + r1.length) r2 = splice buf i (r1 ++ r2) := by
  unfold splice
  have hA : (buf.take i ++ r1).length = i + r1.length := by
    simp
    omega
  rw [← List.append_assoc]
  rw [List.take_left' hA]
  have hD : i + r1.length + r2.length = (buf.take i ++ r1).length + r2.length := by
    rw [hA]
  rw [hD, List.drop_append, List.drop_drop]
  simp [List.append_assoc, Nat.add_assoc]

theorem splice_all (repl : List Nat) (n : Nat) (h : repl.length = n) :
    splice (List.replicate n 0) 0 repl = repl := by
  have hd : (List.replicate n (0 : Nat)).length ≤ 0 + repl.length := by
    simp [h]
  simp [splice, List.drop_eq_nil_of_le hd]
  omega

theorem getElem_append_len (pre : List Nat) (b : Nat) (rest : List Nat)
    (h : pre.length < (pre ++ b :: rest).length) :
    (pre ++ b :: rest)[pre.length] = b := by
  induction pre with
  | nil => simp
  | cons p ps ih =>
    simp only [List.cons_append, List.length_cons, List.getElem_cons_succ]
    exact ih (by simp)

theorem getU8_at (pre : List Nat) (b : Nat) (rest : List Nat) :
    getU8 (pre ++ b :: rest) pre.length = .ok b := by
  have h : pre.length < (pre ++ b :: rest).length := by simp
  unfold getU8
  rw [dif_pos h]
  exact congrArg Except.ok (getElem_append_len pre b rest h)

theorem getU32_cons (pre : List Nat) (b0 b1 b2 b3 : Nat) (rest : List Nat) :
    getU32 (pre ++ b0 :: b1 :: b2 :: b3 :: rest) pre.length =
      .ok (b0 * 2^24 + b1 * 2^16 + b2 * 2^8 + b3) := by
  have g0 := getU8_at pre b0 (b1 :: b2 :: b3 :: rest)
  have g1 := getU8_at (pre ++ [b0]) b1 (b2 :: b3 :: rest)
  have g2 := getU8_at (pre ++ [b0, b1]) b2 (b3 :: rest)
  have g3 := getU8_at (pre ++ [b0, b1, b2]) b3 rest
  simp only [List.append_assoc, List.cons_append, List.nil_append,
    List.length_append, List.length_cons, List.length_nil] at g1 g2 g3
  simp [getU32, g0, g1, g2, g3]
  rfl

theorem getF64_cons (pre : List Nat) (b0 b1 b2 b3 b4 b5 b6 b7 : Nat)
    (rest : List Nat) :
    getF64 (pre ++ b0 :: b1 :: b2 :: b3 :: b4 :: b5 :: b6 :: b7 :: rest)
      pre.length =
      .ok (b0 * 2^56 + b1 * 2^48 + b2 * 2^40 + b3 * 2^32 +
           b4 * 2^24 + b5 * 2^16 + b6 * 2^8 + b7) := by
  have g0 := getU8_at pre b0 (b1 :: b2 :: b3 :: b4 :: b5 :: b6 :: b7 :: rest)
  have g1 := getU8_at (pre ++ [b0]) b1 (b2 :: b3 :: b4 :: b5 :: b6 :: b7 :: rest)
  have g2 := getU8_at (pre ++ [b0, b1]) b2 (b3 :: b4 :: b5 :: b6 :: b7 :: rest)
  have g3 := getU8_at (pre ++ [b0, b1, b2]) b3 (b4 :: b5 :: b6 :: b7 :: rest)
  have g4 := getU8_at (pre ++ [b0, b1, b2, b3]) b4 (b5 :: b6 :: b7 :: rest)
  have g5 := getU8_at (pre ++ [b0, b1, b2, b3, b4]) b5 (b6 :: b7 :: rest)
  have g6 := getU8_at (pre ++ [b0, b1, b2, b3, b4, b5]) b6 (b7 :: rest)
  have g7 := getU8_at (pre ++ [b0, b1, b2, b3, b4, b5, b6]) b7 rest
  simp only [List.append_assoc, List.cons_append, List.nil_append,
    List.length_append, List.length_cons, List.length_nil] at g1 g2 g3 g4 g5 g6 g7
  simp [getF64, g0, g1, g2, g3, g4, g5, g6, g7]
  rfl

theorem beBytes_four (n : Nat) :
    beBytes 4 n = [n / 2^24 % 256, n / 2^16 % 256, n / 2^8 % 256, n % 256] := by
  norm_num [beBytes]

theorem beBytes_eight (n : Nat) :
    beBytes 8 n = [n / 2^56 % 256, n / 2^48 % 256, n / 2^40 % 256,
      n / 2^32 % 256, n / 2^24 % 256, n / 2^16 % 256, n / 2^8 % 256,
      n % 256] := by
  norm_num [beBytes]

theorem getU32_beBytes (pre : List Nat) (n : Nat) (rest : List Nat) :
    getU32 (pre ++ (beBytes 4 n ++ rest)) pre.length = .ok (n % 2^32) := by
  have e : pre ++ (beBytes 4 n ++ rest) =
      pre ++ n / 2^24 % 256 :: n / 2^16 % 256 :: n / 2^8 % 256 ::
        n % 256 :: rest := by
    rw [beBytes_four]
    simp
  rw [e, getU32_cons]
  congr 1
  omega

theorem getF64_beBytes (pre : List Nat) (n : Nat) (rest : List Nat) :
    getF64 (pre ++ (beBytes 8 n ++ rest)) pre.length = .ok (n % 2^64) := by
  have e : pre ++ (beBytes 8 n ++ rest) =
      pre ++ n / 2^56 % 256 :: n / 2^48 % 256 :: n / 2^40 % 256 ::
        n / 2^32 % 256 :: n / 2^24 % 256 :: n / 2^16 % 256 ::
        n / 2^8 % 256 :: n % 256 :: rest := by
    rw [beBytes_eight]
    simp
  rw [e, getF64_cons]
  congr 1
  omega

theorem sliceBuf_at (pre mid rest : List Nat) :
    sliceBuf (pre ++ (mid ++ rest)) pre.length mid.length = mid := by
  unfold sliceBuf
  rw [List.drop_left, List.take_left]

theorem getU8_at1 (pre : List Nat) (b0 b1 : Nat) (rest : List Nat) :
    getU8 (pre ++ b0 :: b1 :: rest) (pre.length + 1) = .ok b1 := by
  have g := getU8_at (pre ++ [b0]) b1 rest
  simpa using g

theorem getU32_at1 (pre : List Nat) (b0 n : Nat) (rest : List Nat) :
    getU32 (pre ++ b0 :: (beBytes 4 n ++ rest)) (pre.length + 1) =
      .ok (n % 2^32) := by
  have g := getU32_beBytes (pre ++ [b0]) n rest
  simpa using g

theorem getF64_at1 (pre : List Nat) (b0 n : Nat) (rest : List Nat) :
    getF64 (pre ++ b0 :: (beBytes 8 n ++ rest)) (pre.length + 1) =
      .ok (n % 2^64) := by
  have g := getF64_beBytes (pre ++ [b0]) n rest
  simpa using g

theorem beBytes_lt (k n : Nat) : ∀ b ∈ beBytes k n, b < 256 := by
  induction k generalizing n with
  | zero => simp [beBytes]
  | succ i ih =>
    intro b hb
    simp only [beBytes, List.mem_cons] at hb
    cases hb with
    | inl h => omega
    | inr h => exact ih n b h

theorem map_mod_id (bs : List Nat) (h : ∀ b ∈ bs, b < 256) :
    bs.map (· % 256) = bs := by
  induction bs with
  | nil => rfl
  | cons b rest ih =>
    have hb : b % 256 = b := Nat.mod_eq_of_lt (h b (by simp))
    simp only [List.map_cons, hb]
    rw [ih (fun x hx => h x (by simp [hx]))]

/-! ## UTF-8 lemmas -/

theorem utf8EncodeScalar_lt (c : Nat) (h : IsScalar c = true) :
    ∀ b ∈ utf8EncodeScalar c, b < 256 := by
  have hc : c < 0x110000 := by
    simp [IsScalar] at h
    omega
  intro b hb
  unfold utf8EncodeScalar at hb
  by_cases h1 : c < 0x80
  · simp [h1] at hb
    omega
  · by_cases h2 : c < 0x800
    · simp [h1, h2] at hb
      omega
    · by_cases h3 : c < 0x10000
      · simp [h1, h2, h3] at hb
        omega
      · simp [h1, h2, h3] at hb
        omega

theorem utf8Encode_lt (cs : List Nat) (h : ∀ c ∈ cs, IsScalar c = true) :
    ∀ b ∈ utf8Encode cs, b < 256 := by
  induction cs with
  | nil => simp [utf8Encode]
  | cons c rest ih =>
    intro b hb
    simp only [utf8Encode, List.mem_append] at hb
    cases hb with
    | inl hmem => exact utf8EncodeScalar_lt c (h c (by simp)) b hmem
    | inr hmem => exact ih (fun x hx => h x (by simp [hx])) b hmem

theorem utf8EncodeScalar_length_pos (c : Nat) :
    0 < (utf8EncodeScalar c).length := by
  unfold utf8EncodeScalar
  split
  · simp
  · split
    · simp
    · split
      · simp
      · simp

theorem utf8DecodeAux_encode (cs : List Nat) (h : ∀ c ∈ cs, IsScalar c = true) :
    ∀ fuel, (utf8Encode cs).length ≤ fuel →
    utf8DecodeAux fuel (utf8Encode cs) = cs := by
  induction cs with
  | nil => intro fuel _; cases fuel <;> simp [utf8Encode, utf8DecodeAux]
  | cons c rest ih =>
    intro fuel hf
    have hsc : IsScalar c = true := h c (by simp)
    have hc : c < 0x110000 ∧ ¬(0xD800 ≤ c ∧ c < 0xE000) := by
      simp [IsScalar] at hsc
      constructor
      · omega
      · intro hs
        have := hsc.2
        omega
    have hrest : ∀ x ∈ rest, IsScalar x = true := fun x hx => h x (by simp [hx])
    have henc : utf8Encode (c :: rest) = utf8EncodeScalar c ++ utf8Encode rest := rfl
    by_cases h1 : c < 0x80
    · -- one byte
      have e : utf8Encode (c :: rest) = c :: utf8Encode rest := by
        rw [henc]
        unfold utf8EncodeScalar
        rw [if_pos h1]
        rfl
      rw [e] at hf ⊢
      match fuel, hf with
      | fuel+1, hf =>
        show (utf8DecodeOne c (utf8Encode rest)).1 ::
          utf8DecodeAux fuel ((utf8Encode rest).drop
            (utf8DecodeOne c (utf8Encode rest)).2) = c :: rest
        have hd : utf8DecodeOne c (utf8Encode rest) = (c, 0) := by
          unfold utf8DecodeOne
          rw [if_pos h1]
        rw [hd]
        simp only [List.drop_zero]
        rw [ih hrest fuel (by simp at hf; omega)]
    · by_cases h2 : c < 0x800
      · -- two bytes
        have e : utf8Encode (c :: rest) =
            (0xC0 + c / 64) :: (0x80 + c % 64) :: utf8Encode rest := by
          rw [henc]
          unfold utf8EncodeScalar
          rw [if_neg h1, if_pos h2]
          rfl
        rw [e] at hf ⊢
        match fuel, hf with
        | fuel+1, hf =>
          show (utf8DecodeOne (0xC0 + c / 64) ((0x80 + c % 64) :: utf8Encode rest)).1 ::
            utf8DecodeAux fuel (((0x80 + c % 64) :: utf8Encode rest).drop
              (utf8DecodeOne (0xC0 + c / 64) ((0x80 + c % 64) :: utf8Encode rest)).2) =
            c :: rest
          have hd : utf8DecodeOne (0xC0 + c / 64) ((0x80 + c % 64) :: utf8Encode rest)
              = (c, 1) := by
            unfold utf8DecodeOne
            rw [if_neg (by omega), if_neg (by omega), if_pos (by omega)]
            have hcont : contB (0x80 + c % 64) = true := by
              simp [contB]
              omega
            show (if contB (0x80 + c % 64) = true then
                ((0xC0 + c / 64 - 0xC0) * 64 + (0x80 + c % 64 - 0x80), 1)
              else (0xFFFD, 0)) = (c, 1)
            rw [if_pos hcont]
            simp only [Prod.mk.injEq]
            exact ⟨by omega, trivial⟩
          rw [hd]
          simp only [List.drop_succ_cons, List.drop_zero]
          rw [ih hrest fuel (by simp at hf ⊢; omega)]
      · by_cases h3 : c < 0x10000
        · -- three bytes
          have e : utf8Encode (c :: rest) =
              (0xE0 + c / 4096) :: (0x80 + c / 64 % 64) :: (0x80 + c % 64) ::
                utf8Encode rest := by
            rw [henc]
            unfold utf8EncodeScalar
            rw [if_neg h1, if_neg h2, if_pos h3]
            rfl
          rw [e] at hf ⊢
          match fuel, hf with
          | fuel+1, hf =>
            show (utf8DecodeOne (0xE0 + c / 4096)
                ((0x80 + c / 64 % 64) :: (0x80 + c % 64) :: utf8Encode rest)).1 ::
              utf8DecodeAux fuel
                (((0x80 + c / 64 % 64) :: (0x80 + c % 64) :: utf8Encode rest).drop
                  (utf8DecodeOne (0xE0 + c / 4096)
                    ((0x80 + c / 64 % 64) :: (0x80 + c % 64) :: utf8Encode rest)).2) =
              c :: rest
            have hd : utf8DecodeOne (0xE0 + c / 4096)
                ((0x80 + c / 64 % 64) :: (0x80 + c % 64) :: utf8Encode rest)
                = (c, 2) := by
              unfold utf8DecodeOne
              rw [if_neg (by omega), if_neg (by omega), if_neg (by omega),
                if_pos (by omega)]
              have hcont : (contB (0x80 + c / 64 % 64) && contB (0x80 + c % 64))
                  = true := by
                simp [contB]
                omega
              show (if (contB (0x80 + c / 64 % 64) && contB (0x80 + c % 64)) = true
                  then
                    (if (0x800 ≤ (0xE0 + c / 4096 - 0xE0) * 4096 +
                          (0x80 + c / 64 % 64 - 0x80) * 64 + (0x80 + c % 64 - 0x80) &&
                        !(0xD800 ≤ (0xE0 + c / 4096 - 0xE0) * 4096 +
                            (0x80 + c / 64 % 64 - 0x80) * 64 + (0x80 + c % 64 - 0x80) &&
                          (0xE0 + c / 4096 - 0xE0) * 4096 +
                            (0x80 + c / 64 % 64 - 0x80) * 64 + (0x80 + c % 64 - 0x80)
                            < 0xE000)) = true
                      then ((0xE0 + c / 4096 - 0xE0) * 4096 +
                          (0x80 + c / 64 % 64 - 0x80) * 64 + (0x80 + c % 64 - 0x80), 2)
                      else (0xFFFD, 2))
                  else (0xFFFD, 0)) = (c, 2)
              rw [if_pos hcont]
              have hval : (0xE0 + c / 4096 - 0xE0) * 4096 +
                  (0x80 + c / 64 % 64 - 0x80) * 64 + (0x80 + c % 64 - 0x80) = c := by
                omega
              rw [hval]
              have hns := hc.2
              have hcond : (0x800 ≤ c && !(0xD800 ≤ c && c < 0xE000)) = true := by
                simp
                omega
              rw [if_pos hcond]
            rw [hd]
            simp only [List.drop_succ_cons, List.drop_zero]
            rw [ih hrest fuel (by simp at hf ⊢; omega)]
        · -- four bytes
          have e : utf8Encode (c :: rest) =
              (0xF0 + c / 262144) :: (0x80 + c / 4096 % 64) ::
                (0x80 + c / 64 % 64) :: (0x80 + c % 64) :: utf8Encode rest := by
            rw [henc]
            unfold utf8EncodeScalar
            rw [if_neg h1, if_neg h2, if_neg h3]
            rfl
          rw [e] at hf ⊢
          match fuel, hf with
          | fuel+1, hf =>
            show (utf8DecodeOne (0xF0 + c / 262144)
                ((0x80 + c / 4096 % 64) :: (0x80 + c / 64 % 64) ::
                  (0x80 + c % 64) :: utf8Encode rest)).1 ::
              utf8DecodeAux fuel
                (((0x80 + c / 4096 % 64) :: (0x80 + c / 64 % 64) ::
                  (0x80 + c % 64) :: utf8Encode rest).drop
                  (utf8DecodeOne (0xF0 + c / 262144)
                    ((0x80 + c / 4096 % 64) :: (0x80 + c / 64 % 64) ::
                      (0x80 + c % 64) :: utf8Encode rest)).2) =
              c :: rest
            have hd : utf8DecodeOne (0xF0 + c / 262144)
                ((0x80 + c / 4096 % 64) :: (0x80 + c / 64 % 64) ::
                  (0x80 + c % 64) :: utf8Encode rest)
                = (c, 3) := by
              unfold utf8DecodeOne
              have hcb : c < 0x110000 := hc.1
              rw [if_neg (by omega), if_neg (by omega), if_neg (by omega),
                if_neg (by omega), if_pos (by omega)]
              have hcont : (contB (0x80 + c / 4096 % 64) &&
                  contB (0x80 + c / 64 % 64) && contB (0x80 + c % 64)) = true := by
                simp [contB]
                omega
              show (if (contB (0x80 + c / 4096 % 64) &&
                    contB (0x80 + c / 64 % 64) && contB (0x80 + c % 64)) = true
                  then
                    (if (0x10000 ≤ (0xF0 + c / 262144 - 0xF0) * 262144 +
                          (0x80 + c / 4096 % 64 - 0x80) * 4096 +
                          (0x80 + c / 64 % 64 - 0x80) * 64 + (0x80 + c % 64 - 0x80) &&
                        (0xF0 + c / 262144 - 0xF0) * 262144 +
                          (0x80 + c / 4096 % 64 - 0x80) * 4096 +
                          (0x80 + c / 64 % 64 - 0x80) * 64 + (0x80 + c % 64 - 0x80)
                          < 0x110000) = true
                      then ((0xF0 + c / 262144 - 0xF0) * 262144 +
                          (0x80 + c / 4096 % 64 - 0x80) * 4096 +
                          (0x80 + c / 64 % 64 - 0x80) * 64 + (0x80 + c % 64 - 0x80), 3)
                      else (0xFFFD, 3))
                  else (0xFFFD, 0)) = (c, 3)
              rw [if_pos hcont]
              have hval : (0xF0 + c / 262144 - 0xF0) * 262144 +
                  (0x80 + c / 4096 % 64 - 0x80) * 4096 +
                  (0x80 + c / 64 % 64 - 0x80) * 64 + (0x80 + c % 64 - 0x80) = c := by
                omega
              rw [hval]
              have hcond : (0x10000 ≤ c && c < 0x110000) = true := by
                simp
                omega
              rw [if_pos hcond]
            rw [hd]
            simp only [List.drop_succ_cons, List.drop_zero]
            rw [ih hrest fuel (by simp at hf ⊢; omega)]

/-- Decoding inverts encoding on well-formed strings. -/
theorem utf8Decode_encode (cs : List Nat) (h : ∀ c ∈ cs, IsScalar c = true) :
    utf8Decode (utf8Encode cs) = cs :=
  utf8DecodeAux_encode cs h (utf8Encode cs).length (Nat.le_refl _)

theorem beBytes_length (k n : Nat) : (beBytes k n).length = k := by
  induction k generalizing n with
  | zero => rfl
  | succ i ih => simp [beBytes, ih]

/-! ## An induction principle for values -/

theorem valueInd (P : Value → Prop)
    (hnull : P .null) (hundef : P .undef) (hfunc : P .func)
    (hbool : ∀ b, P (.bool b)) (hnum : ∀ n, P (.num n))
    (hstr : ∀ cs, P (.str cs)) (hdate : ∀ n, P (.date n))
    (htarr : ∀ k bs, P (.tarr k bs))
    (harr : ∀ xs, (∀ x ∈ xs, P x) → P (.arr xs))
    (hobj : ∀ kvs, (∀ p ∈ kvs, P p.2) → P (.obj kvs)) :
    ∀ v, P v
  | .null => hnull
  | .undef => hundef
  | .func => hfunc
  | .bool b => hbool b
  | .num n => hnum n
  | .str cs => hstr cs
  | .date n => hdate n
  | .tarr k bs => htarr k bs
  | .arr xs => harr xs (fun x hx =>
      valueInd P hnull hundef hfunc hbool hnum hstr hdate htarr harr hobj x)
  | .obj kvs => hobj kvs (fun p hp =>
      valueInd P hnull hundef hfunc hbool hnum hstr hdate htarr harr hobj p.2)
termination_by v => sizeOf v
decreasing_by
  · have h1 := List.sizeOf_lt_of_mem hx
    simp only [Value.arr.sizeOf_spec]
    omega
  · have h1 := List.sizeOf_lt_of_mem hp
    obtain ⟨a, b⟩ := p
    simp only [Value.obj.sizeOf_spec, Prod.mk.sizeOf_spec] at *
    omega

/-! ## Implementation A: wire image and correctness -/

namespace ImplA

/-- The wire image of a string chunk of impl A. -/
def encS (cs : List Nat) : List Nat :=
  TYPES.String :: (beBytes 4 (utf8Encode cs).length ++
    (utf8Encode cs).map (· % 256))

mutual

/-- The byte sequence impl A's writer emits for a value (proved below to be
exactly what `serialize` returns). -/
def enc : Value → List Nat
  | .null => [TYPES.Null]
  | .undef => [TYPES.Null]
  | .func => [TYPES.Null]
  | .bool b => [TYPES.Boolean, if b then 0xFF else 0x00]
  | .num bits => TYPES.Number :: beBytes 8 bits
  | .date bits => TYPES.Date :: beBytes 8 bits
  | .str cs => encS cs
  | .tarr k bs => TYPES.tagOfKind k :: (beBytes 4 bs.length ++ bs.map (· % 256))
  | .arr xs => TYPES.Array :: (beBytes 4 xs.length ++ encL xs)
  | .obj kvs => TYPES.Object :: (beBytes 4 kvs.length ++ encP kvs)

def encL : List Value → List Nat
  | [] => []
  | v :: vs => enc v ++ encL vs

def encP : List (List Nat × Value) → List Nat
  | [] => []
  | (k, v) :: ps => encS k ++ (enc v ++ encP ps)

end

theorem encS_length (cs : List Nat) :
    (encS cs).length = 1 + 4 + (utf8Encode cs).length := by
  simp [encS, beBytes_length]
  omega

theorem tagOfKind_lt (k : TAKind) : TYPES.tagOfKind k < 256 := by
  cases k <;> decide

theorem kindOfTag_tagOfKind (k : TAKind) :
    kindOfTag TYPES (TYPES.tagOfKind k) = some k := by
  cases k <;> rfl

theorem enc_length (v : Value) :
    (enc v).length = (createChunk v).byteLength := by
  induction v using valueInd with
  | hnull => rfl
  | hundef => rfl
  | hfunc => rfl
  | hbool b => rfl
  | hnum n => simp [enc, createChunk, Chunk.byteLength, beBytes_length]
  | hstr cs => simp [enc, encS_length, createChunk, mkStringChunk, Chunk.byteLength]
  | hdate n => simp [enc, createChunk, Chunk.byteLength, beBytes_length]
  | htarr k bs =>
    simp [enc, createChunk, Chunk.byteLength, beBytes_length]
    omega
  | harr xs ih =>
    have haux : ∀ ys : List Value, (∀ x ∈ ys, (enc x).length = (createChunk x).byteLength) →
        (encL ys).length = sumBytes (createChunkList ys) := by
      intro ys hys
      induction ys with
      | nil => rfl
      | cons y rest ihl =>
        simp only [encL, createChunkList, sumBytes, List.length_append]
        rw [hys y (by simp), ihl (fun x hx => hys x (by simp [hx]))]
    simp [enc, createChunk, Chunk.byteLength, beBytes_length, haux xs ih]
    omega
  | hobj kvs ih =>
    have haux : ∀ ps : List (List Nat × Value),
        (∀ p ∈ ps, (enc p.2).length = (createChunk p.2).byteLength) →
        (encP ps).length = sumBytes (createChunkPairs ps) := by
      intro ps hps
      induction ps with
      | nil => rfl
      | cons p rest ihl =>
        obtain ⟨k, v⟩ := p
        simp only [encP, createChunkPairs, sumBytes, List.length_append]
        have hk : (encS k).length = (mkStringChunk k).byteLength := by
          simp [encS_length, mkStringChunk, Chunk.byteLength]
        have hv : (enc v).length = (createChunk v).byteLength :=
          hps (k, v) (by simp)
        rw [hk, hv, ihl (fun q hq => hps q (by simp [hq]))]
    simp [enc, createChunk, Chunk.byteLength, beBytes_length, haux kvs ih]
    omega

theorem enc_length_pos (v : Value) : 0 < (enc v).length := by
  induction v using valueInd <;> simp [enc, encS]

end ImplA

/-! ## Setter equations -/

theorem setU8_eq (buf : List Nat) (i v : Nat) (h : i + 1 ≤ buf.length) :
    setU8 buf i v = some (splice buf i [v % 256]) := by
  unfold setU8
  rw [if_pos h]

theorem setU32_eq (buf : List Nat) (i n : Nat) (h : i + 4 ≤ buf.length) :
    setU32 buf i n = some (splice buf i (beBytes 4 n)) := by
  unfold setU32
  rw [if_pos h]

theorem setF64_eq (buf : List Nat) (i n : Nat) (h : i + 8 ≤ buf.length) :
    setF64 buf i n = some (splice buf i (beBytes 8 n)) := by
  unfold setF64
  rw [if_pos h]

theorem setBytes_eq (buf : List Nat) (i : Nat) (bs : List Nat)
    (h : i + bs.length ≤ buf.length) :
    setBytes buf i bs = some (splice buf i (bs.map (· % 256))) := by
  unfold setBytes
  rw [if_pos h]

namespace ImplA

theorem write_str (cs : List Nat) (buf : List Nat) (i : Nat)
    (h : i + (encS cs).length ≤ buf.length) :
    writeChunk (mkStringChunk cs) buf i =
      some (splice buf i (encS cs), i + (encS cs).length) := by
  have hlen : (encS cs).length = 1 + 4 + (utf8Encode cs).length := encS_length cs
  have h1 : i + 1 ≤ buf.length := by omega
  have hle : i ≤ buf.length := by omega
  have e1 : writeChunk (mkStringChunk cs) buf i =
      (setU8 buf i TYPES.String).bind (fun buf1 =>
        (setU32 buf1 (i + 1) (utf8Encode cs).length).bind (fun buf2 =>
          (setBytes buf2 (i + 1 + 4) (utf8Encode cs)).bind (fun buf3 =>
            some (buf3, i + 1 + 4 + (utf8Encode cs).length)))) := by
    rfl
  rw [e1, setU8_eq buf i _ h1]
  have hl1 : (splice buf i [TYPES.String % 256]).length = buf.length := by
    rw [splice_length]
    simpa using h1
  rw [Option.some_bind]
  rw [setU32_eq _ _ _ (by rw [hl1]; omega)]
  have e2 : splice (splice buf i [TYPES.String % 256]) (i + 1)
      (beBytes 4 (utf8Encode cs).length)
      = splice buf i ([TYPES.String % 256] ++ beBytes 4 (utf8Encode cs).length) := by
    have := splice_splice buf i [TYPES.String % 256]
      (beBytes 4 (utf8Encode cs).length) hle
    simpa using this
  rw [Option.some_bind, e2]
  have hl2 : (splice buf i ([TYPES.String % 256] ++
      beBytes 4 (utf8Encode cs).length)).length = buf.length := by
    rw [splice_length]
    simp [beBytes_length]
    omega
  rw [setBytes_eq _ _ _ (by rw [hl2]; omega)]
  have e3 : splice (splice buf i ([TYPES.String % 256] ++
        beBytes 4 (utf8Encode cs).length)) (i + 1 + 4)
        ((utf8Encode cs).map (· % 256))
      = splice buf i (([TYPES.String % 256] ++
          beBytes 4 (utf8Encode cs).length) ++ (utf8Encode cs).map (· % 256)) := by
    have := splice_splice buf i
      ([TYPES.String % 256] ++ beBytes 4 (utf8Encode cs).length)
      ((utf8Encode cs).map (· % 256)) hle
    rw [← this]
    congr 1
  rw [Option.some_bind, e3]
  have e4 : ([TYPES.String % 256] ++ beBytes 4 (utf8Encode cs).length) ++
      (utf8Encode cs).map (· % 256) = encS cs := by
    simp [encS]
    norm_num [TYPES]
  rw [e4]
  congr 1
  simp only [Prod.mk.injEq]
  exact ⟨trivial, by omega⟩

end ImplA

theorem splice_nil (buf : List Nat) (j : Nat) : splice buf j [] = buf := by
  simp [splice]

theorem ok_bind {α β : Type} (a : α) (f : α → Except DecodeError β) :
    (Except.ok a : Except DecodeError α).bind f = f a := rfl

theorem objInsert_fresh (acc : List (List Nat × Value)) (k : List Nat)
    (v : Value) (h : ∀ p ∈ acc, p.1 ≠ k) :
    objInsert acc k v = acc ++ [(k, v)] := by
  induction acc with
  | nil => rfl
  | cons p rest ih =>
    obtain ⟨k0, v0⟩ := p
    have hne : k0 ≠ k := h (k0, v0) (by simp)
    simp only [objInsert, if_neg hne, List.cons_append]
    rw [ih (fun q hq => h q (by simp [hq]))]

theorem depth_pos (v : Value) : 1 ≤ depth v := by
  cases v <;> simp [depth]

theorem WfStr_parts (cs : List Nat) (h : WfStr cs = true) :
    (∀ c ∈ cs, IsScalar c = true) ∧ (utf8Encode cs).length < 2^32 := by
  simp only [WfStr, Bool.and_eq_true, List.all_eq_true, decide_eq_true_eq] at h
  exact h


namespace ImplA

/-- The statement of write correctness for one value. -/
def WriteOk (v : Value) : Prop :=
  ∀ buf i, i + (enc v).length ≤ buf.length →
    writeChunk (createChunk v) buf i =
      some (splice buf i (enc v), i + (enc v).length)

theorem write_list (xs : List Value) (hxs : ∀ x ∈ xs, WriteOk x) :
    ∀ buf j, j + (encL xs).length ≤ buf.length →
    writeChunkList (createChunkList xs) buf j =
      some (splice buf j (encL xs), j + (encL xs).length) := by
  induction xs with
  | nil =>
    intro buf j h
    simp [createChunkList, writeChunkList, encL, splice_nil]
  | cons x rest ih =>
    intro buf j h
    have hlen : (encL (x :: rest)).length = (enc x).length + (encL rest).length := by
      simp [encL]
    have hx := hxs x (by simp) buf j (by omega)
    show (writeChunk (createChunk x) buf j).bind (fun p =>
      writeChunkList (createChunkList rest) p.1 p.2) = _
    rw [hx, Option.some_bind]
    have hl1 : (splice buf j (enc x)).length = buf.length :=
      splice_length buf j (enc x) (by omega)
    have hrest := ih (fun y hy => hxs y (by simp [hy]))
      (splice buf j (enc x)) (j + (enc x).length) (by rw [hl1]; omega)
    rw [hrest]
    rw [splice_splice buf j (enc x) (encL rest) (by omega)]
    have hc : encL (x :: rest) = enc x ++ encL rest := rfl
    rw [hc]
    congr 2
    simp [List.length_append]
    omega

theorem write_pairs (ps : List (List Nat × Value))
    (hps : ∀ p ∈ ps, WriteOk p.2) :
    ∀ buf j, j + (encP ps).length ≤ buf.length →
    writeChunkList (createChunkPairs ps) buf j =
      some (splice buf j (encP ps), j + (encP ps).length) := by
  induction ps with
  | nil =>
    intro buf j h
    simp [createChunkPairs, writeChunkList, encP, splice_nil]
  | cons p rest ih =>
    obtain ⟨k, v⟩ := p
    intro buf j h
    have hlen : (encP ((k, v) :: rest)).length =
        (encS k).length + ((enc v).length + (encP rest).length) := by
      simp [encP]
    have hk := write_str k buf j (by omega)
    show (writeChunk (mkStringChunk k) buf j).bind (fun p =>
      writeChunkList (createChunk v :: createChunkPairs rest) p.1 p.2) = _
    rw [hk, Option.some_bind]
    have hl1 : (splice buf j (encS k)).length = buf.length :=
      splice_length buf j (encS k) (by omega)
    have hv : writeChunk (createChunk v) (splice buf j (encS k))
        (j + (encS k).length) =
        some (splice (splice buf j (encS k)) (j + (encS k).length) (enc v),
          j + (encS k).length + (enc v).length) :=
      hps (k, v) (by simp) (splice buf j (encS k))
        (j + (encS k).length)
        (by show j + (encS k).length + (enc v).length ≤
              (splice buf j (encS k)).length
            rw [hl1]
            omega)
    show (writeChunk (createChunk v) (splice buf j (encS k))
        (j + (encS k).length)).bind (fun p =>
      writeChunkList (createChunkPairs rest) p.1 p.2) = _
    rw [hv, Option.some_bind]
    have hl2 : (splice (splice buf j (encS k)) (j + (encS k).length)
        (enc v)).length = buf.length := by
      rw [splice_length _ _ _ (by rw [hl1]; omega), hl1]
    have hrest := ih (fun q hq => hps q (by simp [hq]))
      (splice (splice buf j (encS k)) (j + (encS k).length) (enc v))
      (j + (encS k).length + (enc v).length) (by rw [hl2]; omega)
    rw [hrest]
    rw [splice_splice buf j (encS k) (enc v) (by omega)]
    have eidx : j + (encS k).length + (enc v).length =
        j + (encS k ++ enc v).length := by
      rw [List.length_append]
      omega
    rw [eidx]
    rw [splice_splice buf j (encS k ++ enc v) (encP rest) (by omega)]
    have hc : encP ((k, v) :: rest) = (encS k ++ enc v) ++ encP rest := by
      simp [encP]
    rw [hc]
    congr 2
    simp [List.length_append]
    omega

theorem write_enc (v : Value) : WriteOk v := by
  induction v using valueInd with
  | hnull =>
    intro buf i h
    simp only [enc, List.length_cons, List.length_nil] at h
    have e1 : writeChunk (createChunk .null) buf i =
        (setU8 buf i TYPES.Null).bind (fun buf1 => some (buf1, i + 1)) := rfl
    rw [e1, setU8_eq buf i _ (by omega), Option.some_bind]
    norm_num [enc, TYPES]
  | hundef =>
    intro buf i h
    simp only [enc, List.length_cons, List.length_nil] at h
    have e1 : writeChunk (createChunk .undef) buf i =
        (setU8 buf i TYPES.Null).bind (fun buf1 => some (buf1, i + 1)) := rfl
    rw [e1, setU8_eq buf i _ (by omega), Option.some_bind]
    norm_num [enc, TYPES]
  | hfunc =>
    intro buf i h
    simp only [enc, List.length_cons, List.length_nil] at h
    have e1 : writeChunk (createChunk .func) buf i =
        (setU8 buf i TYPES.Null).bind (fun buf1 => some (buf1, i + 1)) := rfl
    rw [e1, setU8_eq buf i _ (by omega), Option.some_bind]
    norm_num [enc, TYPES]
  | hbool b =>
    intro buf i h
    simp only [enc, List.length_cons, List.length_nil] at h
    have e1 : writeChunk (createChunk (.bool b)) buf i =
        (setU8 buf i TYPES.Boolean).bind (fun buf1 =>
          (setU8 buf1 (i + 1) (if b then 0xFF else 0x00)).bind (fun buf2 =>
            some (buf2, i + 1 + 1))) := rfl
    rw [e1, setU8_eq buf i _ (by omega), Option.some_bind]
    have hl1 : (splice buf i [TYPES.Boolean % 256]).length = buf.length :=
      splice_length buf i _ (by simp; omega)
    rw [setU8_eq _ _ _ (by rw [hl1]; omega), Option.some_bind]
    have e2 := splice_splice buf i [TYPES.Boolean % 256]
      [(if b then 0xFF else 0x00) % 256] (by omega)
    simp only [List.length_cons, List.length_nil] at e2
    rw [e2]
    cases b <;> norm_num [enc, TYPES]
  | hnum n =>
    intro buf i h
    have hel : (enc (.num n)).length = 9 := by
      simp [enc, beBytes_length]
    rw [hel] at h
    have e1 : writeChunk (createChunk (.num n)) buf i =
        (setU8 buf i TYPES.Number).bind (fun buf1 =>
          (setF64 buf1 (i + 1) n).bind (fun buf2 =>
            some (buf2, i + 1 + 8))) := rfl
    rw [e1, setU8_eq buf i _ (by omega), Option.some_bind]
    have hl1 : (splice buf i [TYPES.Number % 256]).length = buf.length :=
      splice_length buf i _ (by simp; omega)
    rw [setF64_eq _ _ _ (by rw [hl1]; omega), Option.some_bind]
    have e2 := splice_splice buf i [TYPES.Number % 256] (beBytes 8 n) (by omega)
    simp only [List.length_cons, List.length_nil] at e2
    rw [e2]
    have e3 : [TYPES.Number % 256] ++ beBytes 8 n = enc (.num n) := by
      norm_num [enc, TYPES]
    rw [e3, hel]
  | hdate n =>
    intro buf i h
    have hel : (enc (.date n)).length = 9 := by
      simp [enc, beBytes_length]
    rw [hel] at h
    have e1 : writeChunk (createChunk (.date n)) buf i =
        (setU8 buf i TYPES.Date).bind (fun buf1 =>
          (setF64 buf1 (i + 1) n).bind (fun buf2 =>
            some (buf2, i + 1 + 8))) := rfl
    rw [e1, setU8_eq buf i _ (by omega), Option.some_bind]
    have hl1 : (splice buf i [TYPES.Date % 256]).length = buf.length :=
      splice_length buf i _ (by simp; omega)
    rw [setF64_eq _ _ _ (by rw [hl1]; omega), Option.some_bind]
    have e2 := splice_splice buf i [TYPES.Date % 256] (beBytes 8 n) (by omega)
    simp only [List.length_cons, List.length_nil] at e2
    rw [e2]
    have e3 : [TYPES.Date % 256] ++ beBytes 8 n = enc (.date n) := by
      norm_num [enc, TYPES]
    rw [e3, hel]
  | hstr cs =>
    intro buf i h
    exact write_str cs buf i h
  | htarr k bs =>
    intro buf i h
    have hel : (enc (.tarr k bs)).length = 1 + 4 + bs.length := by
      simp [enc, beBytes_length]
      omega
    rw [hel] at h
    have e1 : writeChunk (createChunk (.tarr k bs)) buf i =
        (setU8 buf i (TYPES.tagOfKind k)).bind (fun buf1 =>
          (setU32 buf1 (i + 1) bs.length).bind (fun buf2 =>
            (setBytes buf2 (i + 1 + 4) bs).bind (fun buf3 =>
              some (buf3, i + 1 + 4 + bs.length)))) := by
      cases k <;> rfl
    rw [e1, setU8_eq buf i _ (by omega), Option.some_bind]
    have hl1 : (splice buf i [TYPES.tagOfKind k % 256]).length = buf.length :=
      splice_length buf i _ (by simp; omega)
    rw [setU32_eq _ _ _ (by rw [hl1]; omega), Option.some_bind]
    have e2 := splice_splice buf i [TYPES.tagOfKind k % 256]
      (beBytes 4 bs.length) (by omega)
    simp only [List.length_cons, List.length_nil] at e2
    rw [e2]
    have hl2 : (splice buf i ([TYPES.tagOfKind k % 256] ++
        beBytes 4 bs.length)).length = buf.length := by
      rw [splice_length]
      simp [beBytes_length]
      omega
    rw [setBytes_eq _ _ _ (by rw [hl2]; omega), Option.some_bind]
    have e3 := splice_splice buf i
      ([TYPES.tagOfKind k % 256] ++ beBytes 4 bs.length)
      (bs.map (· % 256)) (by omega)
    have hlp : ([TYPES.tagOfKind k % 256] ++ beBytes 4 bs.length).length =
        1 + 4 := by
      simp [beBytes_length]
    rw [hlp] at e3
    have e4 : i + 1 + 4 = i + (1 + 4) := by omega
    rw [e4, e3]
    have e5 : ([TYPES.tagOfKind k % 256] ++ beBytes 4 bs.length) ++
        bs.map (· % 256) = enc (.tarr k bs) := by
      have hm : TYPES.tagOfKind k % 256 = TYPES.tagOfKind k :=
        Nat.mod_eq_of_lt (tagOfKind_lt k)
      simp [enc, hm]
    rw [e5, hel]
    congr 2
    omega
  | harr xs ih =>
    intro buf i h
    have hel : (enc (.arr xs)).length = 1 + 4 + (encL xs).length := by
      simp [enc, beBytes_length]
      omega
    rw [hel] at h
    have e1 : writeChunk (createChunk (.arr xs)) buf i =
        (setU8 buf i TYPES.Array).bind (fun buf1 =>
          (setU32 buf1 (i + 1) xs.length).bind (fun buf2 =>
            writeChunkList (createChunkList xs) buf2 (i + 1 + 4))) := rfl
    rw [e1, setU8_eq buf i _ (by omega), Option.some_bind]
    have hl1 : (splice buf i [TYPES.Array % 256]).length = buf.length :=
      splice_length buf i _ (by simp; omega)
    rw [setU32_eq _ _ _ (by rw [hl1]; omega), Option.some_bind]
    have e2 := splice_splice buf i [TYPES.Array % 256]
      (beBytes 4 xs.length) (by omega)
    simp only [List.length_cons, List.length_nil] at e2
    rw [e2]
    have hl2 : (splice buf i ([TYPES.Array % 256] ++
        beBytes 4 xs.length)).length = buf.length := by
      rw [splice_length]
      simp [beBytes_length]
      omega
    have hw := write_list xs ih
      (splice buf i ([TYPES.Array % 256] ++ beBytes 4 xs.length))
      (i + 1 + 4) (by rw [hl2]; omega)
    rw [hw]
    have hlp : ([TYPES.Array % 256] ++ beBytes 4 xs.length).length = 1 + 4 := by
      simp [beBytes_length]
    have e4 : i + 1 + 4 = i + (1 + 4) := by omega
    have e3 := splice_splice buf i
      ([TYPES.Array % 256] ++ beBytes 4 xs.length) (encL xs) (by omega)
    rw [hlp] at e3
    rw [e4, e3]
    have e5 : ([TYPES.Array % 256] ++ beBytes 4 xs.length) ++ encL xs =
        enc (.arr xs) := by
      norm_num [enc, TYPES]
    rw [e5, hel]
    congr 2
    omega
  | hobj kvs ih =>
    intro buf i h
    have hel : (enc (.obj kvs)).length = 1 + 4 + (encP kvs).length := by
      simp [enc, beBytes_length]
      omega
    rw [hel] at h
    have e1 : writeChunk (createChunk (.obj kvs)) buf i =
        (setU8 buf i TYPES.Object).bind (fun buf1 =>
          (setU32 buf1 (i + 1) kvs.length).bind (fun buf2 =>
            writeChunkList (createChunkPairs kvs) buf2 (i + 1 + 4))) := rfl
    rw [e1, setU8_eq buf i _ (by omega), Option.some_bind]
    have hl1 : (splice buf i [TYPES.Object % 256]).length = buf.length :=
      splice_length buf i _ (by simp; omega)
    rw [setU32_eq _ _ _ (by rw [hl1]; omega), Option.some_bind]
    have e2 := splice_splice buf i [TYPES.Object % 256]
      (beBytes 4 kvs.length) (by omega)
    simp only [List.length_cons, List.length_nil] at e2
    rw [e2]
    have hl2 : (splice buf i ([TYPES.Object % 256] ++
        beBytes 4 kvs.length)).length = buf.length := by
      rw [splice_length]
      simp [beBytes_length]
      omega
    have hw := write_pairs kvs ih
      (splice buf i ([TYPES.Object % 256] ++ beBytes 4 kvs.length))
      (i + 1 + 4) (by rw [hl2]; omega)
    rw [hw]
    have hlp : ([TYPES.Object % 256] ++ beBytes 4 kvs.length).length = 1 + 4 := by
      simp [beBytes_length]
    have e4 : i + 1 + 4 = i + (1 + 4) := by omega
    have e3 := splice_splice buf i
      ([TYPES.Object % 256] ++ beBytes 4 kvs.length) (encP kvs) (by omega)
    rw [hlp] at e3
    rw [e4, e3]
    have e5 : ([TYPES.Object % 256] ++ beBytes 4 kvs.length) ++ encP kvs =
        enc (.obj kvs) := by
      norm_num [enc, TYPES]
    rw [e5, hel]
    congr 2
    omega

/-- `serialize` of impl A returns exactly the wire image. -/
theorem serialize_enc (v : Value) : serialize v = some (enc v) := by
  have hb : (List.replicate (createChunk v).byteLength (0 : Nat)).length =
      (enc v).length := by
    simp [enc_length]
  have hw := write_enc v (List.replicate (createChunk v).byteLength 0) 0
    (by rw [hb]; omega)
  show (writeChunk (createChunk v)
      (List.replicate (createChunk v).byteLength 0) 0).bind
    (fun p => some p.1) = some (enc v)
  rw [hw, Option.some_bind]
  show some (splice (List.replicate (createChunk v).byteLength 0) 0 (enc v)) =
    some (enc v)
  congr 1
  exact splice_all (enc v) (createChunk v).byteLength (enc_length v)

/-! ### Reading back what was written (impl A) -/

theorem readChunk_succ (fuel : Nat) (buf : List Nat) (o : Nat) :
    readChunk (fuel+1) buf o =
      (getU8 buf o).bind (fun t =>
        readTagged (fun o2 => readChunk fuel buf o2) buf t (o + 1)) := rfl

theorem readTagged_null (rd : Nat → Except DecodeError ReadChunk)
    (buf : List Nat) (o : Nat) :
    readTagged rd buf 1 o = .ok ⟨1, .null, 0, o⟩ := rfl

theorem readTagged_bool (rd : Nat → Except DecodeError ReadChunk)
    (buf : List Nat) (o : Nat) :
    readTagged rd buf 2 o =
      (getU8 buf o).bind (fun b => .ok ⟨2, .bool (b != 0), 0, o + 1⟩) := rfl

theorem readTagged_num (rd : Nat → Except DecodeError ReadChunk)
    (buf : List Nat) (o : Nat) :
    readTagged rd buf 3 o =
      (getF64 buf o).bind (fun bits => .ok ⟨3, .num bits, 0, o + 8⟩) := rfl

theorem readTagged_date (rd : Nat → Except DecodeError ReadChunk)
    (buf : List Nat) (o : Nat) :
    readTagged rd buf 4 o =
      (getF64 buf o).bind (fun bits =>
        .ok ⟨4, .date (timeClip bits), 0, o + 8⟩) := rfl

theorem readTagged_str (rd : Nat → Except DecodeError ReadChunk)
    (buf : List Nat) (o : Nat) :
    readTagged rd buf 21 o =
      (getU32 buf o).bind (fun length =>
        .ok ⟨21, .str (utf8Decode (sliceBuf buf (o + 4) length)), length,
          o + 4 + length⟩) := rfl

theorem readTagged_tarr (k : TAKind) (rd : Nat → Except DecodeError ReadChunk)
    (buf : List Nat) (o : Nat) :
    readTagged rd buf (TYPES.tagOfKind k) o =
      (getU32 buf o).bind (fun length =>
        (mkTyped k (sliceBuf buf (o + 4) length)).bind (fun v =>
          .ok ⟨TYPES.tagOfKind k, v, length, o + 4 + length⟩)) := by
  cases k <;> rfl

theorem readTagged_arr (rd : Nat → Except DecodeError ReadChunk)
    (buf : List Nat) (o : Nat) :
    readTagged rd buf 22 o =
      (getU32 buf o).bind (fun length =>
        (readList rd length (o + 4)).bind (fun p =>
          .ok ⟨22, .arr p.1, length, p.2⟩)) := rfl

theorem readTagged_obj (rd : Nat → Except DecodeError ReadChunk)
    (buf : List Nat) (o : Nat) :
    readTagged rd buf 23 o =
      (getU32 buf o).bind (fun length =>
        (readPairs rd length (o + 4) []).bind (fun p =>
          .ok ⟨23, .obj p.1, length, p.2⟩)) := rfl

theorem depth_le_enc (v : Value) : depth v ≤ (enc v).length := by
  induction v using valueInd with
  | hnull => simp [depth, enc]
  | hundef => simp [depth, enc]
  | hfunc => simp [depth, enc]
  | hbool b => simp [depth, enc]
  | hnum n => simp [depth, enc]
  | hstr cs => simp [depth, encS, enc]
  | hdate n => simp [depth, enc]
  | htarr k bs => simp [depth, enc]
  | harr xs ih =>
    have haux : ∀ ys : List Value, (∀ x ∈ ys, depth x ≤ (enc x).length) →
        depthL ys ≤ (encL ys).length + 4 := by
      intro ys hys
      induction ys with
      | nil => simp [depthL, encL]
      | cons x rest ihl =>
        have hx := hys x (by simp)
        have hr := ihl (fun y hy => hys y (by simp [hy]))
        simp only [depthL, encL, List.length_append]
        omega
    have hd := haux xs ih
    simp only [depth, enc, List.length_cons, List.length_append, beBytes_length]
    omega
  | hobj kvs ih =>
    have haux : ∀ ps : List (List Nat × Value),
        (∀ p ∈ ps, depth p.2 ≤ (enc p.2).length) →
        depthP ps ≤ (encP ps).length + 4 := by
      intro ps hps
      induction ps with
      | nil => simp [depthP, encP]
      | cons p rest ihl =>
        obtain ⟨k, v⟩ := p
        have hv := hps (k, v) (by simp)
        have hr := ihl (fun q hq => hps q (by simp [hq]))
        simp only [depthP, encP, List.length_append]
        simp only at hv
        omega
    have hd := haux kvs ih
    simp only [depth, enc, List.length_cons, List.length_append, beBytes_length]
    omega

theorem read_str (cs pre post : List Nat) (h : WfStr cs = true) (fuel : Nat) :
    readChunk (fuel+1) (pre ++ (encS cs ++ post)) pre.length =
      .ok ⟨21, .str cs, (utf8Encode cs).length,
        pre.length + (encS cs).length⟩ := by
  obtain ⟨hsc, hlt⟩ := WfStr_parts cs h
  have hM : (utf8Encode cs).map (· % 256) = utf8Encode cs :=
    map_mod_id _ (utf8Encode_lt cs hsc)
  have e1 : pre ++ (encS cs ++ post) =
      pre ++ 21 :: (beBytes 4 (utf8Encode cs).length ++
        ((utf8Encode cs).map (· % 256) ++ post)) := by
    simp [encS, TYPES]
  rw [readChunk_succ, e1, getU8_at, ok_bind, readTagged_str]
  have g32 := getU32_beBytes (pre ++ [21]) (utf8Encode cs).length
    ((utf8Encode cs).map (· % 256) ++ post)
  simp only [List.append_assoc, List.cons_append, List.nil_append,
    List.length_append, List.length_cons, List.length_nil] at g32
  rw [Nat.mod_eq_of_lt hlt] at g32
  rw [g32, ok_bind]
  have hplen : (pre ++ 21 :: beBytes 4 (utf8Encode cs).length).length =
      pre.length + 1 + 4 := by
    simp [beBytes_length]
  have hm : ((utf8Encode cs).map (· % 256)).length = (utf8Encode cs).length := by
    simp
  have hsl : sliceBuf (pre ++ 21 :: (beBytes 4 (utf8Encode cs).length ++
      ((utf8Encode cs).map (· % 256) ++ post))) (pre.length + 1 + 4)
      (utf8Encode cs).length = (utf8Encode cs).map (· % 256) := by
    rw [← hplen, ← hm]
    have hs := sliceBuf_at (pre ++ 21 :: beBytes 4 (utf8Encode cs).length)
      ((utf8Encode cs).map (· % 256)) post
    simpa using hs
  rw [hsl, hM, utf8Decode_encode cs hsc]
  have hoff : pre.length + 1 + 4 + (utf8Encode cs).length =
      pre.length + (encS cs).length := by
    rw [encS_length]
    omega
  rw [hoff]

theorem readList_succ (rd : Nat → Except DecodeError ReadChunk) (c o : Nat) :
    readList rd (c+1) o =
      (rd o).bind (fun item =>
        (readList rd c item.offset).bind (fun p =>
          .ok (item.value :: p.1, p.2))) := rfl

theorem readPairs_succ (rd : Nat → Except DecodeError ReadChunk) (c o : Nat)
    (acc : List (List Nat × Value)) :
    readPairs rd (c+1) o acc =
      (rd o).bind (fun key =>
        (rd key.offset).bind (fun val =>
          readPairs rd c val.offset
            (objInsert acc (keyOf key.value) val.value))) := rfl

/-- The statement of read-back correctness for one value (impl A). -/
def ReadOk (v : Value) : Prop :=
  Wf v = true → ∀ pre post : List Nat, ∀ fuel, depth v ≤ fuel →
    readChunk fuel (pre ++ (enc v ++ post)) pre.length =
      .ok ⟨typeIndexOf v, normalize v, declLen v, pre.length + (enc v).length⟩

theorem read_list_emit (xs : List Value) (hxs : ∀ x ∈ xs, ReadOk x)
    (hwf : WfL xs = true) :
    ∀ pre post : List Nat, ∀ fuel, depthL xs ≤ fuel →
    readList (fun o => readChunk fuel (pre ++ (encL xs ++ post)) o)
      xs.length pre.length =
      .ok (normalizeL xs, pre.length + (encL xs).length) := by
  induction xs with
  | nil =>
    intro pre post fuel hf
    show Except.ok ([], pre.length) = _
    simp [normalizeL, encL]
  | cons x rest ih =>
    intro pre post fuel hf
    have hwx : Wf x = true ∧ WfL rest = true := by
      simpa [WfL, Bool.and_eq_true] using hwf
    simp only [depthL] at hf
    have e1 : pre ++ (encL (x :: rest) ++ post) =
        pre ++ (enc x ++ (encL rest ++ post)) := by
      simp [encL]
    simp only [List.length_cons]
    rw [readList_succ, e1]
    have hx := hxs x (by simp) hwx.1 pre (encL rest ++ post) fuel (by omega)
    rw [hx, ok_bind]
    show (readList (fun o =>
        readChunk fuel (pre ++ (enc x ++ (encL rest ++ post))) o) rest.length
        (pre.length + (enc x).length)).bind (fun p =>
        Except.ok (normalize x :: p.1, p.2)) = _
    have e2 : pre ++ (enc x ++ (encL rest ++ post)) =
        (pre ++ enc x) ++ (encL rest ++ post) := by
      simp
    have eo : pre.length + (enc x).length = (pre ++ enc x).length := by
      simp
    rw [e2, eo]
    rw [ih (fun y hy => hxs y (by simp [hy])) hwx.2 (pre ++ enc x) post fuel
      (by omega)]
    rw [ok_bind]
    show Except.ok (normalize x :: normalizeL rest,
        (pre ++ enc x).length + (encL rest).length) = _
    have : (pre ++ enc x).length + (encL rest).length =
        pre.length + (encL (x :: rest)).length := by
      simp [encL]
      omega
    rw [this]
    rfl

theorem read_pairs_emit (kvs : List (List Nat × Value))
    (hkvs : ∀ p ∈ kvs, ReadOk p.2) (hwf : WfP kvs = true) :
    ∀ acc : List (List Nat × Value),
    (∀ q ∈ acc, ∀ k0 ∈ kvs.map Prod.fst, q.1 ≠ k0) →
    nodupKeys (kvs.map Prod.fst) = true →
    ∀ pre post : List Nat, ∀ fuel, depthP kvs ≤ fuel →
    readPairs (fun o => readChunk fuel (pre ++ (encP kvs ++ post)) o)
      kvs.length pre.length acc =
      .ok (acc ++ normalizeP kvs, pre.length + (encP kvs).length) := by
  induction kvs with
  | nil =>
    intro acc hfresh hnd pre post fuel hf
    show Except.ok (acc, pre.length) = _
    simp [normalizeP, encP]
  | cons p rest ih =>
    obtain ⟨k, v⟩ := p
    intro acc hfresh hnd pre post fuel hf
    have hwx : WfStr k = true ∧ Wf v = true ∧ WfP rest = true := by
      simpa [WfP, Bool.and_eq_true, and_assoc] using hwf
    simp only [depthP] at hf
    have e1 : pre ++ (encP ((k, v) :: rest) ++ post) =
        pre ++ (encS k ++ (enc v ++ (encP rest ++ post))) := by
      simp [encP]
    simp only [List.length_cons]
    rw [readPairs_succ, e1]
    obtain ⟨f1, rfl⟩ : ∃ f1, fuel = f1 + 1 := ⟨fuel - 1, by
      have := depth_pos v
      omega⟩
    rw [read_str k pre (enc v ++ (encP rest ++ post)) hwx.1 f1, ok_bind]
    show (readChunk (f1 + 1) (pre ++ (encS k ++ (enc v ++ (encP rest ++ post))))
        (pre.length + (encS k).length)).bind (fun val =>
        readPairs (fun o =>
          readChunk (f1 + 1)
            (pre ++ (encS k ++ (enc v ++ (encP rest ++ post)))) o)
          rest.length val.offset
          (objInsert acc k val.value)) = _
    have e2 : pre ++ (encS k ++ (enc v ++ (encP rest ++ post))) =
        (pre ++ encS k) ++ (enc v ++ (encP rest ++ post)) := by
      simp
    have eo1 : pre.length + (encS k).length = (pre ++ encS k).length := by
      simp
    rw [e2, eo1]
    have hv : readChunk (f1 + 1)
        ((pre ++ encS k) ++ (enc v ++ (encP rest ++ post)))
        (pre ++ encS k).length =
        Except.ok ⟨typeIndexOf v, normalize v, declLen v,
          (pre ++ encS k).length + (enc v).length⟩ :=
      hkvs (k, v) (by simp) hwx.2.1 (pre ++ encS k)
        (encP rest ++ post) (f1 + 1) (by show depth v ≤ f1 + 1; omega)
    rw [hv, ok_bind]
    have hkfresh : ∀ q ∈ acc, q.1 ≠ k :=
      fun q hq => hfresh q hq k (by simp)
    rw [objInsert_fresh acc k (normalize v) hkfresh]
    show readPairs (fun o =>
        readChunk (f1 + 1)
          ((pre ++ encS k) ++ (enc v ++ (encP rest ++ post))) o)
        rest.length ((pre ++ encS k).length + (enc v).length)
        (acc ++ [(k, normalize v)]) = _
    have e3 : (pre ++ encS k) ++ (enc v ++ (encP rest ++ post)) =
        ((pre ++ encS k) ++ enc v) ++ (encP rest ++ post) := by
      simp
    have eo2 : (pre ++ encS k).length + (enc v).length =
        ((pre ++ encS k) ++ enc v).length := by
      simp
      omega
    rw [e3, eo2]
    have hnd2 : nodupKeys (rest.map Prod.fst) = true ∧
        (rest.map Prod.fst).contains k = false := by
      simp only [List.map_cons, nodupKeys, Bool.and_eq_true,
        Bool.not_eq_true'] at hnd
      exact ⟨hnd.2, hnd.1⟩
    have hfresh2 : ∀ q ∈ acc ++ [(k, normalize v)],
        ∀ k0 ∈ rest.map Prod.fst, q.1 ≠ k0 := by
      intro q hq k0 hk0
      rcases List.mem_append.1 hq with hq1 | hq2
      · exact hfresh q hq1 k0 (by simp [hk0])
      · have hqeq : q = (k, normalize v) := by simpa using hq2
        subst hqeq
        show k ≠ k0
        intro hcontra
        subst hcontra
        have hc : (rest.map Prod.fst).contains k = true := by
          rw [List.contains_eq_any_beq]
          simp only [List.any_eq_true]
          exact ⟨k, hk0, by simp⟩
        rw [hnd2.2] at hc
        cases hc
    rw [ih (fun q hq => hkvs q (by simp [hq])) hwx.2.2
      (acc ++ [(k, normalize v)]) hfresh2 hnd2.1
      ((pre ++ encS k) ++ enc v) post (f1 + 1) (by omega)]
    show Except.ok ((acc ++ [(k, normalize v)]) ++ normalizeP rest,
        ((pre ++ encS k) ++ enc v).length + (encP rest).length) = _
    have ef : (acc ++ [(k, normalize v)]) ++ normalizeP rest =
        acc ++ normalizeP ((k, v) :: rest) := by
      simp [normalizeP]
    have eoff : ((pre ++ encS k) ++ enc v).length + (encP rest).length =
        pre.length + (encP ((k, v) :: rest)).length := by
      simp [encP]
      omega
    rw [ef, eoff]

/-- Reading back what the writer emitted reproduces the normalized value,
with the expected tag, declared length and final cursor (impl A). -/
theorem read_enc (v : Value) : ReadOk v := by
  induction v using valueInd with
  | hnull =>
    intro hwf pre post fuel hfuel
    obtain ⟨f, rfl⟩ : ∃ f, fuel = f + 1 :=
      ⟨fuel - 1, by simp [depth] at hfuel; omega⟩
    have e1 : pre ++ (enc .null ++ post) = pre ++ 1 :: post := by
      simp [enc, TYPES]
    rw [readChunk_succ, e1, getU8_at, ok_bind, readTagged_null]
    simp [typeIndexOf, TYPES, normalize, declLen, enc]
  | hundef =>
    intro hwf pre post fuel hfuel
    obtain ⟨f, rfl⟩ : ∃ f, fuel = f + 1 :=
      ⟨fuel - 1, by simp [depth] at hfuel; omega⟩
    have e1 : pre ++ (enc .undef ++ post) = pre ++ 1 :: post := by
      simp [enc, TYPES]
    rw [readChunk_succ, e1, getU8_at, ok_bind, readTagged_null]
    simp [typeIndexOf, TYPES, normalize, declLen, enc]
  | hfunc =>
    intro hwf pre post fuel hfuel
    obtain ⟨f, rfl⟩ : ∃ f, fuel = f + 1 :=
      ⟨fuel - 1, by simp [depth] at hfuel; omega⟩
    have e1 : pre ++ (enc .func ++ post) = pre ++ 1 :: post := by
      simp [enc, TYPES]
    rw [readChunk_succ, e1, getU8_at, ok_bind, readTagged_null]
    simp [typeIndexOf, TYPES, normalize, declLen, enc]
  | hbool b =>
    intro hwf pre post fuel hfuel
    obtain ⟨f, rfl⟩ : ∃ f, fuel = f + 1 :=
      ⟨fuel - 1, by simp [depth] at hfuel; omega⟩
    have e1 : pre ++ (enc (.bool b) ++ post) =
        pre ++ 2 :: (if b then 0xFF else 0x00) :: post := by
      simp [enc, TYPES]
    rw [readChunk_succ, e1, getU8_at, ok_bind, readTagged_bool]
    rw [getU8_at1, ok_bind]
    cases b <;> simp [typeIndexOf, TYPES, normalize, declLen, enc]
  | hnum n =>
    intro hwf pre post fuel hfuel
    have hn : n < 2^64 := by
      simpa [Wf] using hwf
    obtain ⟨f, rfl⟩ : ∃ f, fuel = f + 1 :=
      ⟨fuel - 1, by simp [depth] at hfuel; omega⟩
    have e1 : pre ++ (enc (.num n) ++ post) =
        pre ++ 3 :: (beBytes 8 n ++ post) := by
      simp [enc, TYPES]
    rw [readChunk_succ, e1, getU8_at, ok_bind, readTagged_num]
    rw [getF64_at1, ok_bind, Nat.mod_eq_of_lt hn]
    simp [typeIndexOf, TYPES, normalize, declLen, enc, beBytes_length]
  | hdate n =>
    intro hwf pre post fuel hfuel
    have hparts : n < 2^64 ∧ finiteBits n = true ∧ timeClip n = n := by
      simpa [Wf, Bool.and_eq_true, and_assoc] using hwf
    obtain ⟨f, rfl⟩ : ∃ f, fuel = f + 1 :=
      ⟨fuel - 1, by simp [depth] at hfuel; omega⟩
    have e1 : pre ++ (enc (.date n) ++ post) =
        pre ++ 4 :: (beBytes 8 n ++ post) := by
      simp [enc, TYPES]
    rw [readChunk_succ, e1, getU8_at, ok_bind, readTagged_date]
    rw [getF64_at1, ok_bind, Nat.mod_eq_of_lt hparts.1, hparts.2.2]
    simp [typeIndexOf, TYPES, normalize, declLen, enc, beBytes_length]
  | hstr cs =>
    intro hwf pre post fuel hfuel
    obtain ⟨f, rfl⟩ : ∃ f, fuel = f + 1 :=
      ⟨fuel - 1, by simp [depth] at hfuel; omega⟩
    have h := read_str cs pre post hwf f
    exact h
  | htarr k bs =>
    intro hwf pre post fuel hfuel
    have hparts : (bs.length % elemSize k = 0 ∧ bs.length < 2^32) ∧
        ∀ b ∈ bs, b < 256 := by
      simpa [Wf, Bool.and_eq_true, List.all_eq_true] using hwf
    obtain ⟨f, rfl⟩ : ∃ f, fuel = f + 1 :=
      ⟨fuel - 1, by simp [depth] at hfuel; omega⟩
    have e1 : pre ++ (enc (.tarr k bs) ++ post) =
        pre ++ TYPES.tagOfKind k ::
          (beBytes 4 bs.length ++ (bs.map (· % 256) ++ post)) := by
      simp [enc]
    rw [readChunk_succ, e1, getU8_at, ok_bind, readTagged_tarr k]
    rw [getU32_at1, ok_bind, Nat.mod_eq_of_lt hparts.1.2]
    have hplen : (pre ++ TYPES.tagOfKind k :: beBytes 4 bs.length).length =
        pre.length + 1 + 4 := by
      simp [beBytes_length]
    have hm : (bs.map (· % 256)).length = bs.length := by simp
    have hsl : sliceBuf (pre ++ TYPES.tagOfKind k ::
        (beBytes 4 bs.length ++ (bs.map (· % 256) ++ post)))
        (pre.length + 1 + 4) bs.length = bs.map (· % 256) := by
      rw [← hplen, ← hm]
      have hs := sliceBuf_at (pre ++ TYPES.tagOfKind k :: beBytes 4 bs.length)
        (bs.map (· % 256)) post
      simpa using hs
    rw [hsl, map_mod_id bs hparts.2]
    have hmk : mkTyped k bs = Except.ok (Value.tarr k bs) := by
      unfold mkTyped
      rw [if_pos hparts.1.1]
    rw [hmk, ok_bind]
    have hoff : pre.length + 1 + 4 + bs.length =
        pre.length + (enc (.tarr k bs)).length := by
      simp [enc, beBytes_length]
      omega
    rw [hoff]
    rfl
  | harr xs ih =>
    intro hwf pre post fuel hfuel
    have hparts : xs.length < 2^32 ∧ WfL xs = true := by
      simpa [Wf, Bool.and_eq_true] using hwf
    obtain ⟨f, rfl⟩ : ∃ f, fuel = f + 1 :=
      ⟨fuel - 1, by simp [depth] at hfuel; omega⟩
    have e1 : pre ++ (enc (.arr xs) ++ post) =
        pre ++ 22 :: (beBytes 4 xs.length ++ (encL xs ++ post)) := by
      simp [enc, TYPES]
    rw [readChunk_succ, e1, getU8_at, ok_bind, readTagged_arr]
    rw [getU32_at1, ok_bind, Nat.mod_eq_of_lt hparts.1]
    have e2 : pre ++ 22 :: (beBytes 4 xs.length ++ (encL xs ++ post)) =
        (pre ++ 22 :: beBytes 4 xs.length) ++ (encL xs ++ post) := by
      simp
    have eo : pre.length + 1 + 4 =
        (pre ++ 22 :: beBytes 4 xs.length).length := by
      simp [beBytes_length]
    rw [e2, eo]
    have hdl : depthL xs ≤ f := by
      simp [depth] at hfuel
      omega
    rw [read_list_emit xs ih hparts.2 (pre ++ 22 :: beBytes 4 xs.length)
      post f hdl]
    rw [ok_bind]
    show Except.ok (⟨22, .arr (normalizeL xs), xs.length,
        (pre ++ 22 :: beBytes 4 xs.length).length + (encL xs).length⟩ :
        ReadChunk) = _
    have hoff : (pre ++ 22 :: beBytes 4 xs.length).length + (encL xs).length =
        pre.length + (enc (.arr xs)).length := by
      simp [enc, beBytes_length]
      omega
    rw [hoff]
    rfl
  | hobj kvs ih =>
    intro hwf pre post fuel hfuel
    have hparts : kvs.length < 2^32 ∧
        nodupKeys (kvs.map Prod.fst) = true ∧ WfP kvs = true := by
      simpa [Wf, Bool.and_eq_true, and_assoc] using hwf
    obtain ⟨f, rfl⟩ : ∃ f, fuel = f + 1 :=
      ⟨fuel - 1, by simp [depth] at hfuel; omega⟩
    have e1 : pre ++ (enc (.obj kvs) ++ post) =
        pre ++ 23 :: (beBytes 4 kvs.length ++ (encP kvs ++ post)) := by
      simp [enc, TYPES]
    rw [readChunk_succ, e1, getU8_at, ok_bind, readTagged_obj]
    rw [getU32_at1, ok_bind, Nat.mod_eq_of_lt hparts.1]
    have e2 : pre ++ 23 :: (beBytes 4 kvs.length ++ (encP kvs ++ post)) =
        (pre ++ 23 :: beBytes 4 kvs.length) ++ (encP kvs ++ post) := by
      simp
    have eo : pre.length + 1 + 4 =
        (pre ++ 23 :: beBytes 4 kvs.length).length := by
      simp [beBytes_length]
    rw [e2, eo]
    have hdp : depthP kvs ≤ f := by
      simp [depth] at hfuel
      omega
    rw [read_pairs_emit kvs ih hparts.2.2 [] (by simp) hparts.2.1
      (pre ++ 23 :: beBytes 4 kvs.length) post f hdp]
    rw [ok_bind]
    show Except.ok (⟨23, .obj (normalizeP kvs), kvs.length,
        (pre ++ 23 :: beBytes 4 kvs.length).length + (encP kvs).length⟩ :
        ReadChunk) = _
    have hoff : (pre ++ 23 :: beBytes 4 kvs.length).length + (encP kvs).length =
        pre.length + (enc (.obj kvs)).length := by
      simp [enc, beBytes_length]
      omega
    rw [hoff]
    rfl

/-- Decoding a serialized value with any byte suffix yields the normalized
value (impl A): the reader consumes exactly one chunk and ignores the rest. -/
theorem deserialize_enc_suffix (v : Value) (h : Wf v = true) (s : List Nat) :
    deserialize (enc v ++ s) = .ok (normalize v) := by
  have hfuel : depth v ≤ (enc v ++ s).length + 1 := by
    have h1 := depth_le_enc v
    simp only [List.length_append]
    omega
  have hr := read_enc v h [] s ((enc v ++ s).length + 1) hfuel
  simp only [List.nil_append, List.length_nil] at hr
  show (readChunk ((enc v ++ s).length + 1) (enc v ++ s) 0).bind
    (fun chunk => Except.ok chunk.value) = .ok (normalize v)
  rw [hr, ok_bind]

/-- Round trip for impl A. -/
theorem deserialize_serialize (v : Value) (h : Wf v = true) :
    deserialize (enc v) = .ok (normalize v) := by
  have hs := deserialize_enc_suffix v h []
  simpa using hs

end ImplA

/-! ## Implementation B: wire image and correctness -/

namespace ImplB

/-- The wire image of a string chunk of impl B. -/
def encS (cs : List Nat) : List Nat :=
  TYPES.String :: (beBytes 4 (utf8Encode cs).length ++
    (utf8Encode cs).map (· % 256))

mutual

/-- The byte sequence impl B's writer emits for a value. -/
def enc : Value → List Nat
  | .null => [TYPES.Null]
  | .undef => [TYPES.Null]
  | .func => [TYPES.Null]
  | .bool b => [TYPES.Boolean, if b then 0xFF else 0x00]
  | .num bits => TYPES.Number :: beBytes 8 bits
  | .date bits => TYPES.Date :: beBytes 8 bits
  | .str cs => encS cs
  | .tarr k bs => TYPES.tagOfKind k :: (beBytes 4 bs.length ++ bs.map (· % 256))
  | .arr xs => TYPES.Array :: (beBytes 4 xs.length ++ encL xs)
  | .obj kvs => TYPES.Object :: (beBytes 4 kvs.length ++ encP kvs)

def encL : List Value → List Nat
  | [] => []
  | v :: vs => enc v ++ encL vs

def encP : List (List Nat × Value) → List Nat
  | [] => []
  | (k, v) :: ps => encS k ++ (enc v ++ encP ps)

end

theorem encS_lengthB (cs : List Nat) :
    (encS cs).length = 1 + 4 + (utf8Encode cs).length := by
  simp [encS, beBytes_length]
  omega

theorem tagOfKind_ltB (k : TAKind) : TYPES.tagOfKind k < 256 := by
  cases k <;> decide

theorem kindOfTag_tagOfKindB (k : TAKind) :
    kindOfTag TYPES (TYPES.tagOfKind k) = some k := by
  cases k <;> rfl

theorem lengthC_pairs (kvs : List (List Nat × Value)) :
    lengthC (createChunkPairs kvs) = 2 * kvs.length := by
  induction kvs with
  | nil => rfl
  | cons p rest ih =>
    obtain ⟨k, v⟩ := p
    simp only [createChunkPairs, lengthC, List.length_cons, ih]
    omega

/-- The Object chunk's declared count is the number of key/value pairs. -/
theorem obj_chunk_length (kvs : List (List Nat × Value)) :
    lengthC (createChunkPairs kvs) / 2 = kvs.length := by
  rw [lengthC_pairs]
  omega

theorem calcSize_enc (v : Value) :
    calculateSize (createChunk v) = (enc v).length := by
  induction v using valueInd with
  | hnull => rfl
  | hundef => rfl
  | hfunc => rfl
  | hbool b => rfl
  | hnum n => simp [enc, beBytes_length, calculateSize, createChunk, TYPES]
  | hstr cs =>
    show (1 : Nat) + 4 + (utf8Encode cs).length = (encS cs).length
    rw [encS_lengthB cs]
  | hdate n => simp [enc, beBytes_length, calculateSize, createChunk, TYPES]
  | htarr k bs =>
    have e1 : calculateSize (createChunk (.tarr k bs)) = 1 + 4 + bs.length := by
      cases k <;> rfl
    rw [e1]
    simp [enc, beBytes_length]
    omega
  | harr xs ih =>
    have haux : ∀ ys : List Value,
        (∀ x ∈ ys, calculateSize (createChunk x) = (enc x).length) →
        calculateSizeList (createChunkList ys) = (encL ys).length := by
      intro ys hys
      induction ys with
      | nil => rfl
      | cons y rest ihl =>
        simp only [createChunkList, calculateSizeList, encL, List.length_append]
        rw [hys y (by simp), ihl (fun x hx => hys x (by simp [hx]))]
    have e1 : calculateSize (createChunk (.arr xs)) =
        1 + 4 + calculateSizeList (createChunkList xs) := rfl
    rw [e1, haux xs ih]
    simp [enc, beBytes_length]
    omega
  | hobj kvs ih =>
    have haux : ∀ ps : List (List Nat × Value),
        (∀ p ∈ ps, calculateSize (createChunk p.2) = (enc p.2).length) →
        calculateSizeList (createChunkPairs ps) = (encP ps).length := by
      intro ps hps
      induction ps with
      | nil => rfl
      | cons p rest ihl =>
        obtain ⟨k, v⟩ := p
        simp only [createChunkPairs, calculateSizeList, encP, List.length_append]
        have hk : calculateSize (mkStringChunk k) = (encS k).length := by
          show (1 : Nat) + 4 + (utf8Encode k).length = (encS k).length
          rw [encS_lengthB k]
        have hv : calculateSize (createChunk v) = (enc v).length :=
          hps (k, v) (by simp)
        rw [hk, hv, ihl (fun q hq => hps q (by simp [hq]))]
    have e1 : calculateSize (createChunk (.obj kvs)) =
        1 + 4 + calculateSizeList (createChunkPairs kvs) := rfl
    rw [e1, haux kvs ih]
    simp [enc, beBytes_length]
    omega

theorem write_strB (cs : List Nat) (buf : List Nat) (i : Nat)
    (h : i + (encS cs).length ≤ buf.length) :
    writeChunk (mkStringChunk cs) buf i =
      some (splice buf i (encS cs), i + (encS cs).length) := by
  have hlen : (encS cs).length = 1 + 4 + (utf8Encode cs).length := encS_lengthB cs
  have h1 : i + 1 ≤ buf.length := by omega
  have hle : i ≤ buf.length := by omega
  have e1 : writeChunk (mkStringChunk cs) buf i =
      (setU8 buf i TYPES.String).bind (fun buf1 =>
        (setU32 buf1 (i + 1) (utf8Encode cs).length).bind (fun buf2 =>
          (setBytes buf2 (i + 1 + 4) (utf8Encode cs)).bind (fun buf3 =>
            some (buf3, i + 1 + 4 + (utf8Encode cs).length)))) := rfl
  rw [e1, setU8_eq buf i _ h1]
  have hl1 : (splice buf i [TYPES.String % 256]).length = buf.length := by
    rw [splice_length]
    simpa using h1
  rw [Option.some_bind]
  rw [setU32_eq _ _ _ (by rw [hl1]; omega)]
  have e2 : splice (splice buf i [TYPES.String % 256]) (i + 1)
      (beBytes 4 (utf8Encode cs).length)
      = splice buf i ([TYPES.String % 256] ++ beBytes 4 (utf8Encode cs).length) := by
    have := splice_splice buf i [TYPES.String % 256]
      (beBytes 4 (utf8Encode cs).length) hle
    simpa using this
  rw [Option.some_bind, e2]
  have hl2 : (splice buf i ([TYPES.String % 256] ++
      beBytes 4 (utf8Encode cs).length)).length = buf.length := by
    rw [splice_length]
    simp [beBytes_length]
    omega
  rw [setBytes_eq _ _ _ (by rw [hl2]; omega)]
  have e3 : splice (splice buf i ([TYPES.String % 256] ++
        beBytes 4 (utf8Encode cs).length)) (i + 1 + 4)
        ((utf8Encode cs).map (· % 256))
      = splice buf i (([TYPES.String % 256] ++
          beBytes 4 (utf8Encode cs).length) ++ (utf8Encode cs).map (· % 256)) := by
    have := splice_splice buf i
      ([TYPES.String % 256] ++ beBytes 4 (utf8Encode cs).length)
      ((utf8Encode cs).map (· % 256)) hle
    rw [← this]
    congr 1
  rw [Option.some_bind, e3]
  have e4 : ([TYPES.String % 256] ++ beBytes 4 (utf8Encode cs).length) ++
      (utf8Encode cs).map (· % 256) = encS cs := by
    simp [encS]
    norm_num [TYPES]
  rw [e4]
  congr 1
  simp only [Prod.mk.injEq]
  exact ⟨trivial, by omega⟩

/-- The statement of write correctness for one value (impl B). -/
def WriteOkB (v : Value) : Prop :=
  ∀ buf i, i + (enc v).length ≤ buf.length →
    writeChunk (createChunk v) buf i =
      some (splice buf i (enc v), i + (enc v).length)

theorem write_listB (xs : List Value) (hxs : ∀ x ∈ xs, WriteOkB x) :
    ∀ buf j, j + (encL xs).length ≤ buf.length →
    writeChunkList (createChunkList xs) buf j =
      some (splice buf j (encL xs), j + (encL xs).length) := by
  induction xs with
  | nil =>
    intro buf j h
    simp [createChunkList, writeChunkList, encL, splice_nil]
  | cons x rest ih =>
    intro buf j h
    have hlen : (encL (x :: rest)).length = (enc x).length + (encL rest).length := by
      simp [encL]
    have hx := hxs x (by simp) buf j (by omega)
    show (writeChunk (createChunk x) buf j).bind (fun p =>
      writeChunkList (createChunkList rest) p.1 p.2) = _
    rw [hx, Option.some_bind]
    have hl1 : (splice buf j (enc x)).length = buf.length :=
      splice_length buf j (enc x) (by omega)
    have hrest := ih (fun y hy => hxs y (by simp [hy]))
      (splice buf j (enc x)) (j + (enc x).length) (by rw [hl1]; omega)
    rw [hrest]
    rw [splice_splice buf j (enc x) (encL rest) (by omega)]
    have hc : encL (x :: rest) = enc x ++ encL rest := rfl
    rw [hc]
    congr 2
    simp [List.length_append]
    omega

theorem write_pairsB (ps : List (List Nat × Value))
    (hps : ∀ p ∈ ps, WriteOkB p.2) :
    ∀ buf j, j + (encP ps).length ≤ buf.length →
    writeChunkList (createChunkPairs ps) buf j =
      some (splice buf j (encP ps), j + (encP ps).length) := by
  induction ps with
  | nil =>
    intro buf j h
    simp [createChunkPairs, writeChunkList, encP, splice_nil]
  | cons p rest ih =>
    obtain ⟨k, v⟩ := p
    intro buf j h
    have hlen : (encP ((k, v) :: rest)).length =
        (encS k).length + ((enc v).length + (encP rest).length) := by
      simp [encP]
    have hk := write_strB k buf j (by omega)
    show (writeChunk (mkStringChunk k) buf j).bind (fun p =>
      writeChunkList (createChunk v :: createChunkPairs rest) p.1 p.2) = _
    rw [hk, Option.some_bind]
    have hl1 : (splice buf j (encS k)).length = buf.length :=
      splice_length buf j (encS k) (by omega)
    have hv : writeChunk (createChunk v) (splice buf j (encS k))
        (j + (encS k).length) =
        some (splice (splice buf j (encS k)) (j + (encS k).length) (enc v),
          j + (encS k).length + (enc v).length) :=
      hps (k, v) (by simp) (splice buf j (encS k))
        (j + (encS k).length)
        (by show j + (encS k).length + (enc v).length ≤
              (splice buf j (encS k)).length
            rw [hl1]
            omega)
    show (writeChunk (createChunk v) (splice buf j (encS k))
        (j + (encS k).length)).bind (fun p =>
      writeChunkList (createChunkPairs rest) p.1 p.2) = _
    rw [hv, Option.some_bind]
    have hl2 : (splice (splice buf j (encS k)) (j + (encS k).length)
        (enc v)).length = buf.length := by
      rw [splice_length _ _ _ (by rw [hl1]; omega), hl1]
    have hrest := ih (fun q hq => hps q (by simp [hq]))
      (splice (splice buf j (encS k)) (j + (encS k).length) (enc v))
      (j + (encS k).length + (enc v).length) (by rw [hl2]; omega)
    rw [hrest]
    rw [splice_splice buf j (encS k) (enc v) (by omega)]
    have eidx : j + (encS k).length + (enc v).length =
        j + (encS k ++ enc v).length := by
      rw [List.length_append]
      omega
    rw [eidx]
    rw [splice_splice buf j (encS k ++ enc v) (encP rest) (by omega)]
    have hc : encP ((k, v) :: rest) = (encS k ++ enc v) ++ encP rest := by
      simp [encP]
    rw [hc]
    congr 2
    simp [List.length_append]
    omega

theorem write_encB (v : Value) : WriteOkB v := by
  induction v using valueInd with
  | hnull =>
    intro buf i h
    simp only [enc, List.length_cons, List.length_nil] at h
    have e1 : writeChunk (createChunk .null) buf i =
        (setU8 buf i TYPES.Null).bind (fun buf1 => some (buf1, i + 1)) := rfl
    rw [e1, setU8_eq buf i _ (by omega), Option.some_bind]
    norm_num [enc, TYPES]
  | hundef =>
    intro buf i h
    simp only [enc, List.length_cons, List.length_nil] at h
    have e1 : writeChunk (createChunk .undef) buf i =
        (setU8 buf i TYPES.Null).bind (fun buf1 => some (buf1, i + 1)) := rfl
    rw [e1, setU8_eq buf i _ (by omega), Option.some_bind]
    norm_num [enc, TYPES]
  | hfunc =>
    intro buf i h
    simp only [enc, List.length_cons, List.length_nil] at h
    have e1 : writeChunk (createChunk .func) buf i =
        (setU8 buf i TYPES.Null).bind (fun buf1 => some (buf1, i + 1)) := rfl
    rw [e1, setU8_eq buf i _ (by omega), Option.some_bind]
    norm_num [enc, TYPES]
  | hbool b =>
    intro buf i h
    simp only [enc, List.length_cons, List.length_nil] at h
    have e1 : writeChunk (createChunk (.bool b)) buf i =
        (setU8 buf i TYPES.Boolean).bind (fun buf1 =>
          (setU8 buf1 (i + 1) (if b then 0xFF else 0x00)).bind (fun buf2 =>
            some (buf2, i + 1 + 1))) := rfl
    rw [e1, setU8_eq buf i _ (by omega), Option.some_bind]
    have hl1 : (splice buf i [TYPES.Boolean % 256]).length = buf.length :=
      splice_length buf i _ (by simp; omega)
    rw [setU8_eq _ _ _ (by rw [hl1]; omega), Option.some_bind]
    have e2 := splice_splice buf i [TYPES.Boolean % 256]
      [(if b then 0xFF else 0x00) % 256] (by omega)
    simp only [List.length_cons, List.length_nil] at e2
    rw [e2]
    cases b <;> norm_num [enc, TYPES]
  | hnum n =>
    intro buf i h
    have hel : (enc (.num n)).length = 9 := by
      simp [enc, beBytes_length]
    rw [hel] at h
    have e1 : writeChunk (createChunk (.num n)) buf i =
        (setU8 buf i TYPES.Number).bind (fun buf1 =>
          (setF64 buf1 (i + 1) n).bind (fun buf2 =>
            some (buf2, i + 1 + 8))) := rfl
    rw [e1, setU8_eq buf i _ (by omega), Option.some_bind]
    have hl1 : (splice buf i [TYPES.Number % 256]).length = buf.length :=
      splice_length buf i _ (by simp; omega)
    rw [setF64_eq _ _ _ (by rw [hl1]; omega), Option.some_bind]
    have e2 := splice_splice buf i [TYPES.Number % 256] (beBytes 8 n) (by omega)
    simp only [List.length_cons, List.length_nil] at e2
    rw [e2]
    have e3 : [TYPES.Number % 256] ++ beBytes 8 n = enc (.num n) := by
      norm_num [enc, TYPES]
    rw [e3, hel]
  | hdate n =>
    intro buf i h
    have hel : (enc (.date n)).length = 9 := by
      simp [enc, beBytes_length]
    rw [hel] at h
    have e1 : writeChunk (createChunk (.date n)) buf i =
        (setU8 buf i TYPES.Date).bind (fun buf1 =>
          (setF64 buf1 (i + 1) n).bind (fun buf2 =>
            some (buf2, i + 1 + 8))) := rfl
    rw [e1, setU8_eq buf i _ (by omega), Option.some_bind]
    have hl1 : (splice buf i [TYPES.Date % 256]).length = buf.length :=
      splice_length buf i _ (by simp; omega)
    rw [setF64_eq _ _ _ (by rw [hl1]; omega), Option.some_bind]
    have e2 := splice_splice buf i [TYPES.Date % 256] (beBytes 8 n) (by omega)
    simp only [List.length_cons, List.length_nil] at e2
    rw [e2]
    have e3 : [TYPES.Date % 256] ++ beBytes 8 n = enc (.date n) := by
      norm_num [enc, TYPES]
    rw [e3, hel]
  | hstr cs =>
    intro buf i h
    exact write_strB cs buf i h
  | htarr k bs =>
    intro buf i h
    have hel : (enc (.tarr k bs)).length = 1 + 4 + bs.length := by
      simp [enc, beBytes_length]
      omega
    rw [hel] at h
    have e1 : writeChunk (createChunk (.tarr k bs)) buf i =
        (setU8 buf i (TYPES.tagOfKind k)).bind (fun buf1 =>
          (setU32 buf1 (i + 1) bs.length).bind (fun buf2 =>
            (setBytes buf2 (i + 1 + 4) bs).bind (fun buf3 =>
              some (buf3, i + 1 + 4 + bs.length)))) := by
      cases k <;> rfl
    rw [e1, setU8_eq buf i _ (by omega), Option.some_bind]
    have hl1 : (splice buf i [TYPES.tagOfKind k % 256]).length = buf.length :=
      splice_length buf i _ (by simp; omega)
    rw [setU32_eq _ _ _ (by rw [hl1]; omega), Option.some_bind]
    have e2 := splice_splice buf i [TYPES.tagOfKind k % 256]
      (beBytes 4 bs.length) (by omega)
    simp only [List.length_cons, List.length_nil] at e2
    rw [e2]
    have hl2 : (splice buf i ([TYPES.tagOfKind k % 256] ++
        beBytes 4 bs.length)).length = buf.length := by
      rw [splice_length]
      simp [beBytes_length]
      omega
    rw [setBytes_eq _ _ _ (by rw [hl2]; omega), Option.some_bind]
    have e3 := splice_splice buf i
      ([TYPES.tagOfKind k % 256] ++ beBytes 4 bs.length)
      (bs.map (· % 256)) (by omega)
    have hlp : ([TYPES.tagOfKind k % 256] ++ beBytes 4 bs.length).length =
        1 + 4 := by
      simp [beBytes_length]
    rw [hlp] at e3
    have e4 : i + 1 + 4 = i + (1 + 4) := by omega
    rw [e4, e3]
    have e5 : ([TYPES.tagOfKind k % 256] ++ beBytes 4 bs.length) ++
        bs.map (· % 256) = enc (.tarr k bs) := by
      have hm : TYPES.tagOfKind k % 256 = TYPES.tagOfKind k :=
        Nat.mod_eq_of_lt (tagOfKind_ltB k)
      simp [enc, hm]
    rw [e5, hel]
    congr 2
    omega
  | harr xs ih =>
    intro buf i h
    have hel : (enc (.arr xs)).length = 1 + 4 + (encL xs).length := by
      simp [enc, beBytes_length]
      omega
    rw [hel] at h
    have e1 : writeChunk (createChunk (.arr xs)) buf i =
        (setU8 buf i TYPES.Array).bind (fun buf1 =>
          (setU32 buf1 (i + 1) xs.length).bind (fun buf2 =>
            writeChunkList (createChunkList xs) buf2 (i + 1 + 4))) := rfl
    rw [e1, setU8_eq buf i _ (by omega), Option.some_bind]
    have hl1 : (splice buf i [TYPES.Array % 256]).length = buf.length :=
      splice_length buf i _ (by simp; omega)
    rw [setU32_eq _ _ _ (by rw [hl1]; omega), Option.some_bind]
    have e2 := splice_splice buf i [TYPES.Array % 256]
      (beBytes 4 xs.length) (by omega)
    simp only [List.length_cons, List.length_nil] at e2
    rw [e2]
    have hl2 : (splice buf i ([TYPES.Array % 256] ++
        beBytes 4 xs.length)).length = buf.length := by
      rw [splice_length]
      simp [beBytes_length]
      omega
    have hw := write_listB xs ih
      (splice buf i ([TYPES.Array % 256] ++ beBytes 4 xs.length))
      (i + 1 + 4) (by rw [hl2]; omega)
    rw [hw]
    have hlp : ([TYPES.Array % 256] ++ beBytes 4 xs.length).length = 1 + 4 := by
      simp [beBytes_length]
    have e4 : i + 1 + 4 = i + (1 + 4) := by omega
    have e3 := splice_splice buf i
      ([TYPES.Array % 256] ++ beBytes 4 xs.length) (encL xs) (by omega)
    rw [hlp] at e3
    rw [e4, e3]
    have e5 : ([TYPES.Array % 256] ++ beBytes 4 xs.length) ++ encL xs =
        enc (.arr xs) := by
      norm_num [enc, TYPES]
    rw [e5, hel]
    congr 2
    omega
  | hobj kvs ih =>
    intro buf i h
    have hel : (enc (.obj kvs)).length = 1 + 4 + (encP kvs).length := by
      simp [enc, beBytes_length]
      omega
    rw [hel] at h
    have e1 : writeChunk (createChunk (.obj kvs)) buf i =
        (setU8 buf i TYPES.Object).bind (fun buf1 =>
          (setU32 buf1 (i + 1) (lengthC (createChunkPairs kvs) / 2)).bind
            (fun buf2 =>
              writeChunkList (createChunkPairs kvs) buf2 (i + 1 + 4))) := rfl
    rw [e1, setU8_eq buf i _ (by omega), Option.some_bind]
    rw [obj_chunk_length kvs]
    have hl1 : (splice buf i [TYPES.Object % 256]).length = buf.length :=
      splice_length buf i _ (by simp; omega)
    rw [setU32_eq _ _ _ (by rw [hl1]; omega), Option.some_bind]
    have e2 := splice_splice buf i [TYPES.Object % 256]
      (beBytes 4 kvs.length) (by omega)
    simp only [List.length_cons, List.length_nil] at e2
    rw [e2]
    have hl2 : (splice buf i ([TYPES.Object % 256] ++
        beBytes 4 kvs.length)).length = buf.length := by
      rw [splice_length]
      simp [beBytes_length]
      omega
    have hw := write_pairsB kvs ih
      (splice buf i ([TYPES.Object % 256] ++ beBytes 4 kvs.length))
      (i + 1 + 4) (by rw [hl2]; omega)
    rw [hw]
    have hlp : ([TYPES.Object % 256] ++ beBytes 4 kvs.length).length = 1 + 4 := by
      simp [beBytes_length]
    have e4 : i + 1 + 4 = i + (1 + 4) := by omega
    have e3 := splice_splice buf i
      ([TYPES.Object % 256] ++ beBytes 4 kvs.length) (encP kvs) (by omega)
    rw [hlp] at e3
    rw [e4, e3]
    have e5 : ([TYPES.Object % 256] ++ beBytes 4 kvs.length) ++ encP kvs =
        enc (.obj kvs) := by
      norm_num [enc, TYPES]
    rw [e5, hel]
    congr 2
    omega

/-- `TORM.serialize` of impl B returns exactly the wire image. -/
theorem serialize_encB (v : Value) : serialize v = some (enc v) := by
  have hb : (List.replicate (calculateSize (createChunk v)) (0 : Nat)).length =
      (enc v).length := by
    simp [calcSize_enc]
  have hw := write_encB v (List.replicate (calculateSize (createChunk v)) 0) 0
    (by rw [hb]; omega)
  show (writeChunk (createChunk v)
      (List.replicate (calculateSize (createChunk v)) 0) 0).bind
    (fun p => some p.1) = some (enc v)
  rw [hw, Option.some_bind]
  show some (splice (List.replicate (calculateSize (createChunk v)) 0) 0
    (enc v)) = some (enc v)
  congr 1
  exact splice_all (enc v) (calculateSize (createChunk v)) (calcSize_enc v).symm

/-! ### Reading back what was written (impl B) -/

theorem readChunk_succB (fuel : Nat) (buf : List Nat) (o : Nat) :
    readChunk (fuel+1) buf o =
      (getU8 buf o).bind (fun t =>
        readTagged (fun o2 => readChunk fuel buf o2) buf t (o + 1)) := rfl

theorem readTagged_nullB (rd : Nat → Except DecodeError ReadResult)
    (buf : List Nat) (o : Nat) :
    readTagged rd buf 1 o = .ok ⟨.null, o⟩ := rfl

theorem readTagged_boolB (rd : Nat → Except DecodeError ReadResult)
    (buf : List Nat) (o : Nat) :
    readTagged rd buf 2 o =
      (getU8 buf o).bind (fun b => .ok ⟨.bool (b != 0), o + 1⟩) := rfl

theorem readTagged_numB (rd : Nat → Except DecodeError ReadResult)
    (buf : List Nat) (o : Nat) :
    readTagged rd buf 3 o =
      (getF64 buf o).bind (fun bits => .ok ⟨.num bits, o + 8⟩) := rfl

theorem readTagged_dateB (rd : Nat → Except DecodeError ReadResult)
    (buf : List Nat) (o : Nat) :
    readTagged rd buf 4 o =
      (getF64 buf o).bind (fun bits =>
        .ok ⟨.date (timeClip bits), o + 8⟩) := rfl

theorem readTagged_strB (rd : Nat → Except DecodeError ReadResult)
    (buf : List Nat) (o : Nat) :
    readTagged rd buf 5 o =
      (getU32 buf o).bind (fun length =>
        .ok ⟨.str (utf8Decode (sliceBuf buf (o + 4) length)),
          o + 4 + length⟩) := rfl

theorem readTagged_tarrB (k : TAKind) (rd : Nat → Except DecodeError ReadResult)
    (buf : List Nat) (o : Nat) :
    readTagged rd buf (TYPES.tagOfKind k) o =
      (getU32 buf o).bind (fun length =>
        (mkTyped k (sliceBuf buf (o + 4) length)).bind (fun v =>
          .ok ⟨v, o + 4 + length⟩)) := by
  cases k <;> rfl

theorem readTagged_arrB (rd : Nat → Except DecodeError ReadResult)
    (buf : List Nat) (o : Nat) :
    readTagged rd buf 6 o =
      (getU32 buf o).bind (fun length =>
        (readList rd length (o + 4)).bind (fun p =>
          .ok ⟨.arr p.1, p.2⟩)) := rfl

theorem readTagged_objB (rd : Nat → Except DecodeError ReadResult)
    (buf : List Nat) (o : Nat) :
    readTagged rd buf 7 o =
      (getU32 buf o).bind (fun length =>
        (readPairs rd length (o + 4) []).bind (fun p =>
          .ok ⟨.obj p.1, p.2⟩)) := rfl

theorem readList_succB (rd : Nat → Except DecodeError ReadResult) (c o : Nat) :
    readList rd (c+1) o =
      (rd o).bind (fun item =>
        (readList rd c item.offset).bind (fun p =>
          .ok (item.value :: p.1, p.2))) := rfl

theorem readPairs_succB (rd : Nat → Except DecodeError ReadResult) (c o : Nat)
    (acc : List (List Nat × Value)) :
    readPairs rd (c+1) o acc =
      (rd o).bind (fun key =>
        (rd key.offset).bind (fun val =>
          readPairs rd c val.offset
            (objInsert acc (keyOf key.value) val.value))) := rfl

theorem depth_le_encB (v : Value) : depth v ≤ (enc v).length := by
  induction v using valueInd with
  | hnull => simp [depth, enc]
  | hundef => simp [depth, enc]
  | hfunc => simp [depth, enc]
  | hbool b => simp [depth, enc]
  | hnum n => simp [depth, enc]
  | hstr cs => simp [depth, encS, enc]
  | hdate n => simp [depth, enc]
  | htarr k bs => simp [depth, enc]
  | harr xs ih =>
    have haux : ∀ ys : List Value, (∀ x ∈ ys, depth x ≤ (enc x).length) →
        depthL ys ≤ (encL ys).length + 4 := by
      intro ys hys
      induction ys with
      | nil => simp [depthL, encL]
      | cons x rest ihl =>
        have hx := hys x (by simp)
        have hr := ihl (fun y hy => hys y (by simp [hy]))
        simp only [depthL, encL, List.length_append]
        omega
    have hd := haux xs ih
    simp only [depth, enc, List.length_cons, List.length_append, beBytes_length]
    omega
  | hobj kvs ih =>
    have haux : ∀ ps : List (List Nat × Value),
        (∀ p ∈ ps, depth p.2 ≤ (enc p.2).length) →
        depthP ps ≤ (encP ps).length + 4 := by
      intro ps hps
      induction ps with
      | nil => simp [depthP, encP]
      | cons p rest ihl =>
        obtain ⟨k, v⟩ := p
        have hv := hps (k, v) (by simp)
        have hr := ihl (fun q hq => hps q (by simp [hq]))
        simp only [depthP, encP, List.length_append]
        simp only at hv
        omega
    have hd := haux kvs ih
    simp only [depth, enc, List.length_cons, List.length_append, beBytes_length]
    omega

theorem read_strB (cs pre post : List Nat) (h : WfStr cs = true) (fuel : Nat) :
    readChunk (fuel+1) (pre ++ (encS cs ++ post)) pre.length =
      .ok ⟨.str cs, pre.length + (encS cs).length⟩ := by
  obtain ⟨hsc, hlt⟩ := WfStr_parts cs h
  have hM : (utf8Encode cs).map (· % 256) = utf8Encode cs :=
    map_mod_id _ (utf8Encode_lt cs hsc)
  have e1 : pre ++ (encS cs ++ post) =
      pre ++ 5 :: (beBytes 4 (utf8Encode cs).length ++
        ((utf8Encode cs).map (· % 256) ++ post)) := by
    simp [encS, TYPES]
  rw [readChunk_succB, e1, getU8_at, ok_bind, readTagged_strB]
  have g32 := getU32_beBytes (pre ++ [5]) (utf8Encode cs).length
    ((utf8Encode cs).map (· % 256) ++ post)
  simp only [List.append_assoc, List.cons_append, List.nil_append,
    List.length_append, List.length_cons, List.length_nil] at g32
  rw [Nat.mod_eq_of_lt hlt] at g32
  rw [g32, ok_bind]
  have hplen : (pre ++ 5 :: beBytes 4 (utf8Encode cs).length).length =
      pre.length + 1 + 4 := by
    simp [beBytes_length]
  have hm : ((utf8Encode cs).map (· % 256)).length = (utf8Encode cs).length := by
    simp
  have hsl : sliceBuf (pre ++ 5 :: (beBytes 4 (utf8Encode cs).length ++
      ((utf8Encode cs).map (· % 256) ++ post))) (pre.length + 1 + 4)
      (utf8Encode cs).length = (utf8Encode cs).map (· % 256) := by
    rw [← hplen, ← hm]
    have hs := sliceBuf_at (pre ++ 5 :: beBytes 4 (utf8Encode cs).length)
      ((utf8Encode cs).map (· % 256)) post
    simpa using hs
  rw [hsl, hM, utf8Decode_encode cs hsc]
  have hoff : pre.length + 1 + 4 + (utf8Encode cs).length =
      pre.length + (encS cs).length := by
    rw [encS_lengthB]
    omega
  rw [hoff]

/-- The statement of read-back correctness for one value (impl B). -/
def ReadOkB (v : Value) : Prop :=
  Wf v = true → ∀ pre post : List Nat, ∀ fuel, depth v ≤ fuel →
    readChunk fuel (pre ++ (enc v ++ post)) pre.length =
      .ok ⟨normalize v, pre.length + (enc v).length⟩

theorem read_list_emitB (xs : List Value) (hxs : ∀ x ∈ xs, ReadOkB x)
    (hwf : WfL xs = true) :
    ∀ pre post : List Nat, ∀ fuel, depthL xs ≤ fuel →
    readList (fun o => readChunk fuel (pre ++ (encL xs ++ post)) o)
      xs.length pre.length =
      .ok (normalizeL xs, pre.length + (encL xs).length) := by
  induction xs with
  | nil =>
    intro pre post fuel hf
    show Except.ok ([], pre.length) = _
    simp [normalizeL, encL]
  | cons x rest ih =>
    intro pre post fuel hf
    have hwx : Wf x = true ∧ WfL rest = true := by
      simpa [WfL, Bool.and_eq_true] using hwf
    simp only [depthL] at hf
    have e1 : pre ++ (encL (x :: rest) ++ post) =
        pre ++ (enc x ++ (encL rest ++ post)) := by
      simp [encL]
    simp only [List.length_cons]
    rw [readList_succB, e1]
    have hx := hxs x (by simp) hwx.1 pre (encL rest ++ post) fuel (by omega)
    rw [hx, ok_bind]
    show (readList (fun o =>
        readChunk fuel (pre ++ (enc x ++ (encL rest ++ post))) o) rest.length
        (pre.length + (enc x).length)).bind (fun p =>
        Except.ok (normalize x :: p.1, p.2)) = _
    have e2 : pre ++ (enc x ++ (encL rest ++ post)) =
        (pre ++ enc x) ++ (encL rest ++ post) := by
      simp
    have eo : pre.length + (enc x).length = (pre ++ enc x).length := by
      simp
    rw [e2, eo]
    rw [ih (fun y hy => hxs y (by simp [hy])) hwx.2 (pre ++ enc x) post fuel
      (by omega)]
    rw [ok_bind]
    show Except.ok (normalize x :: normalizeL rest,
        (pre ++ enc x).length + (encL rest).length) = _
    have : (pre ++ enc x).length + (encL rest).length =
        pre.length + (encL (x :: rest)).length := by
      simp [encL]
      omega
    rw [this]
    rfl

theorem read_pairs_emitB (kvs : List (List Nat × Value))
    (hkvs : ∀ p ∈ kvs, ReadOkB p.2) (hwf : WfP kvs = true) :
    ∀ acc : List (List Nat × Value),
    (∀ q ∈ acc, ∀ k0 ∈ kvs.map Prod.fst, q.1 ≠ k0) →
    nodupKeys (kvs.map Prod.fst) = true →
    ∀ pre post : List Nat, ∀ fuel, depthP kvs ≤ fuel →
    readPairs (fun o => readChunk fuel (pre ++ (encP kvs ++ post)) o)
      kvs.length pre.length acc =
      .ok (acc ++ normalizeP kvs, pre.length + (encP kvs).length) := by
  induction kvs with
  | nil =>
    intro acc hfresh hnd pre post fuel hf
    show Except.ok (acc, pre.length) = _
    simp [normalizeP, encP]
  | cons p rest ih =>
    obtain ⟨k, v⟩ := p
    intro acc hfresh hnd pre post fuel hf
    have hwx : WfStr k = true ∧ Wf v = true ∧ WfP rest = true := by
      simpa [WfP, Bool.and_eq_true, and_assoc] using hwf
    simp only [depthP] at hf
    have e1 : pre ++ (encP ((k, v) :: rest) ++ post) =
        pre ++ (encS k ++ (enc v ++ (encP rest ++ post))) := by
      simp [encP]
    simp only [List.length_cons]
    rw [readPairs_succB, e1]
    obtain ⟨f1, rfl⟩ : ∃ f1, fuel = f1 + 1 := ⟨fuel - 1, by
      have := depth_pos v
      omega⟩
    rw [read_strB k pre (enc v ++ (encP rest ++ post)) hwx.1 f1, ok_bind]
    show (readChunk (f1 + 1) (pre ++ (encS k ++ (enc v ++ (encP rest ++ post))))
        (pre.length + (encS k).length)).bind (fun val =>
        readPairs (fun o =>
          readChunk (f1 + 1)
            (pre ++ (encS k ++ (enc v ++ (encP rest ++ post)))) o)
          rest.length val.offset
          (objInsert acc k val.value)) = _
    have e2 : pre ++ (encS k ++ (enc v ++ (encP rest ++ post))) =
        (pre ++ encS k) ++ (enc v ++ (encP rest ++ post)) := by
      simp
    have eo1 : pre.length + (encS k).length = (pre ++ encS k).length := by
      simp
    rw [e2, eo1]
    have hv : readChunk (f1 + 1)
        ((pre ++ encS k) ++ (enc v ++ (encP rest ++ post)))
        (pre ++ encS k).length =
        Except.ok ⟨normalize v, (pre ++ encS k).length + (enc v).length⟩ :=
      hkvs (k, v) (by simp) hwx.2.1 (pre ++ encS k)
        (encP rest ++ post) (f1 + 1) (by show depth v ≤ f1 + 1; omega)
    rw [hv, ok_bind]
    have hkfresh : ∀ q ∈ acc, q.1 ≠ k :=
      fun q hq => hfresh q hq k (by simp)
    rw [objInsert_fresh acc k (normalize v) hkfresh]
    show readPairs (fun o =>
        readChunk (f1 + 1)
          ((pre ++ encS k) ++ (enc v ++ (encP rest ++ post))) o)
        rest.length ((pre ++ encS k).length + (enc v).length)
        (acc ++ [(k, normalize v)]) = _
    have e3 : (pre ++ encS k) ++ (enc v ++ (encP rest ++ post)) =
        ((pre ++ encS k) ++ enc v) ++ (encP rest ++ post) := by
      simp
    have eo2 : (pre ++ encS k).length + (enc v).length =
        ((pre ++ encS k) ++ enc v).length := by
      simp
      omega
    rw [e3, eo2]
    have hnd2 : nodupKeys (rest.map Prod.fst) = true ∧
        (rest.map Prod.fst).contains k = false := by
      simp only [List.map_cons, nodupKeys, Bool.and_eq_true,
        Bool.not_eq_true'] at hnd
      exact ⟨hnd.2, hnd.1⟩
    have hfresh2 : ∀ q ∈ acc ++ [(k, normalize v)],
        ∀ k0 ∈ rest.map Prod.fst, q.1 ≠ k0 := by
      intro q hq k0 hk0
      rcases List.mem_append.1 hq with hq1 | hq2
      · exact hfresh q hq1 k0 (by simp [hk0])
      · have hqeq : q = (k, normalize v) := by simpa using hq2
        subst hqeq
        show k ≠ k0
        intro hcontra
        subst hcontra
        have hc : (rest.map Prod.fst).contains k = true := by
          rw [List.contains_eq_any_beq]
          simp only [List.any_eq_true]
          exact ⟨k, hk0, by simp⟩
        rw [hnd2.2] at hc
        cases hc
    rw [ih (fun q hq => hkvs q (by simp [hq])) hwx.2.2
      (acc ++ [(k, normalize v)]) hfresh2 hnd2.1
      ((pre ++ encS k) ++ enc v) post (f1 + 1) (by omega)]
    show Except.ok ((acc ++ [(k, normalize v)]) ++ normalizeP rest,
        ((pre ++ encS k) ++ enc v).length + (encP rest).length) = _
    have ef : (acc ++ [(k, normalize v)]) ++ normalizeP rest =
        acc ++ normalizeP ((k, v) :: rest) := by
      simp [normalizeP]
    have eoff : ((pre ++ encS k) ++ enc v).length + (encP rest).length =
        pre.length + (encP ((k, v) :: rest)).length := by
      simp [encP]
      omega
    rw [ef, eoff]

/-- Reading back what the writer emitted reproduces the normalized value
(impl B). -/
theorem read_encB (v : Value) : ReadOkB v := by
  induction v using valueInd with
  | hnull =>
    intro hwf pre post fuel hfuel
    obtain ⟨f, rfl⟩ : ∃ f, fuel = f + 1 :=
      ⟨fuel - 1, by simp [depth] at hfuel; omega⟩
    have e1 : pre ++ (enc .null ++ post) = pre ++ 1 :: post := by
      simp [enc, TYPES]
    rw [readChunk_succB, e1, getU8_at, ok_bind, readTagged_nullB]
    simp [normalize, enc]
  | hundef =>
    intro hwf pre post fuel hfuel
    obtain ⟨f, rfl⟩ : ∃ f, fuel = f + 1 :=
      ⟨fuel - 1, by simp [depth] at hfuel; omega⟩
    have e1 : pre ++ (enc .undef ++ post) = pre ++ 1 :: post := by
      simp [enc, TYPES]
    rw [readChunk_succB, e1, getU8_at, ok_bind, readTagged_nullB]
    simp [normalize, enc]
  | hfunc =>
    intro hwf pre post fuel hfuel
    obtain ⟨f, rfl⟩ : ∃ f, fuel = f + 1 :=
      ⟨fuel - 1, by simp [depth] at hfuel; omega⟩
    have e1 : pre ++ (enc .func ++ post) = pre ++ 1 :: post := by
      simp [enc, TYPES]
    rw [readChunk_succB, e1, getU8_at, ok_bind, readTagged_nullB]
    simp [normalize, enc]
  | hbool b =>
    intro hwf pre post fuel hfuel
    obtain ⟨f, rfl⟩ : ∃ f, fuel = f + 1 :=
      ⟨fuel - 1, by simp [depth] at hfuel; omega⟩
    have e1 : pre ++ (enc (.bool b) ++ post) =
        pre ++ 2 :: (if b then 0xFF else 0x00) :: post := by
      simp [enc, TYPES]
    rw [readChunk_succB, e1, getU8_at, ok_bind, readTagged_boolB]
    rw [getU8_at1, ok_bind]
    cases b <;> simp [normalize, enc]
  | hnum n =>
    intro hwf pre post fuel hfuel
    have hn : n < 2^64 := by
      simpa [Wf] using hwf
    obtain ⟨f, rfl⟩ : ∃ f, fuel = f + 1 :=
      ⟨fuel - 1, by simp [depth] at hfuel; omega⟩
    have e1 : pre ++ (enc (.num n) ++ post) =
        pre ++ 3 :: (beBytes 8 n ++ post) := by
      simp [enc, TYPES]
    rw [readChunk_succB, e1, getU8_at, ok_bind, readTagged_numB]
    rw [getF64_at1, ok_bind, Nat.mod_eq_of_lt hn]
    simp [normalize, enc, beBytes_length]
  | hdate n =>
    intro hwf pre post fuel hfuel
    have hparts : n < 2^64 ∧ finiteBits n = true ∧ timeClip n = n := by
      simpa [Wf, Bool.and_eq_true, and_assoc] using hwf
    obtain ⟨f, rfl⟩ : ∃ f, fuel = f + 1 :=
      ⟨fuel - 1, by simp [depth] at hfuel; omega⟩
    have e1 : pre ++ (enc (.date n) ++ post) =
        pre ++ 4 :: (beBytes 8 n ++ post) := by
      simp [enc, TYPES]
    rw [readChunk_succB, e1, getU8_at, ok_bind, readTagged_dateB]
    rw [getF64_at1, ok_bind, Nat.mod_eq_of_lt hparts.1, hparts.2.2]
    simp [normalize, enc, beBytes_length]
  | hstr cs =>
    intro hwf pre post fuel hfuel
    obtain ⟨f, rfl⟩ : ∃ f, fuel = f + 1 :=
      ⟨fuel - 1, by simp [depth] at hfuel; omega⟩
    exact read_strB cs pre post hwf f
  | htarr k bs =>
    intro hwf pre post fuel hfuel
    have hparts : (bs.length % elemSize k = 0 ∧ bs.length < 2^32) ∧
        ∀ b ∈ bs, b < 256 := by
      simpa [Wf, Bool.and_eq_true, List.all_eq_true] using hwf
    obtain ⟨f, rfl⟩ : ∃ f, fuel = f + 1 :=
      ⟨fuel - 1, by simp [depth] at hfuel; omega⟩
    have e1 : pre ++ (enc (.tarr k bs) ++ post) =
        pre ++ TYPES.tagOfKind k ::
          (beBytes 4 bs.length ++ (bs.map (· % 256) ++ post)) := by
      simp [enc]
    rw [readChunk_succB, e1, getU8_at, ok_bind, readTagged_tarrB k]
    rw [getU32_at1, ok_bind, Nat.mod_eq_of_lt hparts.1.2]
    have hplen : (pre ++ TYPES.tagOfKind k :: beBytes 4 bs.length).length =
        pre.length + 1 + 4 := by
      simp [beBytes_length]
    have hm : (bs.map (· % 256)).length = bs.length := by simp
    have hsl : sliceBuf (pre ++ TYPES.tagOfKind k ::
        (beBytes 4 bs.length ++ (bs.map (· % 256) ++ post)))
        (pre.length + 1 + 4) bs.length = bs.map (· % 256) := by
      rw [← hplen, ← hm]
      have hs := sliceBuf_at (pre ++ TYPES.tagOfKind k :: beBytes 4 bs.length)
        (bs.map (· % 256)) post
      simpa using hs
    rw [hsl, map_mod_id bs hparts.2]
    have hmk : mkTyped k bs = Except.ok (Value.tarr k bs) := by
      unfold mkTyped
      rw [if_pos hparts.1.1]
    rw [hmk, ok_bind]
    have hoff : pre.length + 1 + 4 + bs.length =
        pre.length + (enc (.tarr k bs)).length := by
      simp [enc, beBytes_length]
      omega
    rw [hoff]
    rfl
  | harr xs ih =>
    intro hwf pre post fuel hfuel
    have hparts : xs.length < 2^32 ∧ WfL xs = true := by
      simpa [Wf, Bool.and_eq_true] using hwf
    obtain ⟨f, rfl⟩ : ∃ f, fuel = f + 1 :=
      ⟨fuel - 1, by simp [depth] at hfuel; omega⟩
    have e1 : pre ++ (enc (.arr xs) ++ post) =
        pre ++ 6 :: (beBytes 4 xs.length ++ (encL xs ++ post)) := by
      simp [enc, TYPES]
    rw [readChunk_succB, e1, getU8_at, ok_bind, readTagged_arrB]
    rw [getU32_at1, ok_bind, Nat.mod_eq_of_lt hparts.1]
    have e2 : pre ++ 6 :: (beBytes 4 xs.length ++ (encL xs ++ post)) =
        (pre ++ 6 :: beBytes 4 xs.length) ++ (encL xs ++ post) := by
      simp
    have eo : pre.length + 1 + 4 =
        (pre ++ 6 :: beBytes 4 xs.length).length := by
      simp [beBytes_length]
    rw [e2, eo]
    have hdl : depthL xs ≤ f := by
      simp [depth] at hfuel
      omega
    rw [read_list_emitB xs ih hparts.2 (pre ++ 6 :: beBytes 4 xs.length)
      post f hdl]
    rw [ok_bind]
    show Except.ok (⟨.arr (normalizeL xs),
        (pre ++ 6 :: beBytes 4 xs.length).length + (encL xs).length⟩ :
        ReadResult) = _
    have hoff : (pre ++ 6 :: beBytes 4 xs.length).length + (encL xs).length =
        pre.length + (enc (.arr xs)).length := by
      simp [enc, beBytes_length]
      omega
    rw [hoff]
    rfl
  | hobj kvs ih =>
    intro hwf pre post fuel hfuel
    have hparts : kvs.length < 2^32 ∧
        nodupKeys (kvs.map Prod.fst) = true ∧ WfP kvs = true := by
      simpa [Wf, Bool.and_eq_true, and_assoc] using hwf
    obtain ⟨f, rfl⟩ : ∃ f, fuel = f + 1 :=
      ⟨fuel - 1, by simp [depth] at hfuel; omega⟩
    have e1 : pre ++ (enc (.obj kvs) ++ post) =
        pre ++ 7 :: (beBytes 4 kvs.length ++ (encP kvs ++ post)) := by
      simp [enc, TYPES]
    rw [readChunk_succB, e1, getU8_at, ok_bind, readTagged_objB]
    rw [getU32_at1, ok_bind, Nat.mod_eq_of_lt hparts.1]
    have e2 : pre ++ 7 :: (beBytes 4 kvs.length ++ (encP kvs ++ post)) =
        (pre ++ 7 :: beBytes 4 kvs.length) ++ (encP kvs ++ post) := by
      simp
    have eo : pre.length + 1 + 4 =
        (pre ++ 7 :: beBytes 4 kvs.length).length := by
      simp [beBytes_length]
    rw [e2, eo]
    have hdp : depthP kvs ≤ f := by
      simp [depth] at hfuel
      omega
    rw [read_pairs_emitB kvs ih hparts.2.2 [] (by simp) hparts.2.1
      (pre ++ 7 :: beBytes 4 kvs.length) post f hdp]
    rw [ok_bind]
    show Except.ok (⟨.obj (normalizeP kvs),
        (pre ++ 7 :: beBytes 4 kvs.length).length + (encP kvs).length⟩ :
        ReadResult) = _
    have hoff : (pre ++ 7 :: beBytes 4 kvs.length).length + (encP kvs).length =
        pre.length + (enc (.obj kvs)).length := by
      simp [enc, beBytes_length]
      omega
    rw [hoff]
    rfl

/-- Decoding a serialized value with any byte suffix yields the normalized
value (impl B). -/
theorem deserialize_enc_suffixB (v : Value) (h : Wf v = true) (s : List Nat) :
    deserialize (enc v ++ s) = .ok (normalize v) := by
  have hfuel : depth v ≤ (enc v ++ s).length + 1 := by
    have h1 := depth_le_encB v
    simp only [List.length_append]
    omega
  have hr := read_encB v h [] s ((enc v ++ s).length + 1) hfuel
  simp only [List.nil_append, List.length_nil] at hr
  have hne : (enc v ++ s).length ≠ 0 := by
    have := depth_pos v
    have := depth_le_encB v
    simp only [List.length_append]
    omega
  show (if (enc v ++ s).length = 0 then Except.error DecodeError.emptyInput
    else (readChunk ((enc v ++ s).length + 1) (enc v ++ s) 0).bind
      (fun r => Except.ok r.value)) = .ok (normalize v)
  rw [if_neg hne, hr, ok_bind]

/-- Round trip for impl B. -/
theorem deserialize_serializeB (v : Value) (h : Wf v = true) :
    deserialize (enc v) = .ok (normalize v) := by
  have hs := deserialize_enc_suffixB v h []
  simpa using hs

end ImplB

/-! ## Registered tag sets -/

/-- The tag bytes registered in impl A's table. -/
def registeredTagsA : List Nat :=
  [ImplA.TYPES.Null, ImplA.TYPES.Boolean, ImplA.TYPES.Number, ImplA.TYPES.Date,
   ImplA.TYPES.Int8Array, ImplA.TYPES.Int16Array, ImplA.TYPES.Int32Array,
   ImplA.TYPES.Uint8Array, ImplA.TYPES.Uint16Array, ImplA.TYPES.Uint32Array,
   ImplA.TYPES.Float32Array, ImplA.TYPES.Float64Array,
   ImplA.TYPES.String, ImplA.TYPES.Array, ImplA.TYPES.Object]

/-- The tag bytes registered in impl B's table. -/
def registeredTagsB : List Nat :=
  [ImplB.TYPES.Null, ImplB.TYPES.Boolean, ImplB.TYPES.Number, ImplB.TYPES.Date,
   ImplB.TYPES.Int8Array, ImplB.TYPES.Int16Array, ImplB.TYPES.Int32Array,
   ImplB.TYPES.Uint8Array, ImplB.TYPES.Uint16Array, ImplB.TYPES.Uint32Array,
   ImplB.TYPES.Float32Array, ImplB.TYPES.Float64Array,
   ImplB.TYPES.String, ImplB.TYPES.Array, ImplB.TYPES.Object]

theorem kindOfTagB_none (t : Nat) (h : t ∉ registeredTagsB) :
    kindOfTag ImplB.TYPES t = none := by
  simp only [registeredTagsB, ImplB.TYPES, List.mem_cons,
    List.not_mem_nil, or_false, not_or] at h
  obtain ⟨h1, h2, h3, h4, h10, h11, h12, h13, h14, h15, h16, h17,
    h5, h6, h7⟩ := h
  simp [kindOfTag, ImplB.TYPES, h10, h11, h12, h13, h14, h15, h16, h17]

theorem readTaggedB_unknown (rd : Nat → Except DecodeError ImplB.ReadResult)
    (buf : List Nat) (t o : Nat) (h : t ∉ registeredTagsB) :
    ImplB.readTagged rd buf t o =
      (getU32 buf o).bind (fun _ => Except.error (.unknownTypeTag t)) := by
  have hk := kindOfTagB_none t h
  simp only [registeredTagsB, ImplB.TYPES, List.mem_cons,
    List.not_mem_nil, or_false, not_or] at h
  obtain ⟨h1, h2, h3, h4, h10, h11, h12, h13, h14, h15, h16, h17,
    h5, h6, h7⟩ := h
  unfold ImplB.readTagged
  simp only [ImplB.TYPES] at hk ⊢
  simp [h1, h2, h3, h4, h5, h6, h7, hk]
  rfl

theorem err_bind {α β : Type} (e : DecodeError) (f : α → Except DecodeError β) :
    (Except.error e : Except DecodeError α).bind f = Except.error e := rfl

theorem normalizeP_keys (kvs : List (List Nat × Value)) :
    (normalizeP kvs).map Prod.fst = kvs.map Prod.fst := by
  induction kvs with
  | nil => rfl
  | cons p rest ih =>
    obtain ⟨k, v⟩ := p
    simp [normalizeP, ih]

/-! ## The claims -/

/-- Claim C1: for every supported `Value` v (well-formed per `Wf`),
`deserialize (serialize v)` is deep-equal to v, except that `undefined` and
function values round-trip to `null` (captured by `normalize`), and `Date`
values are preserved to millisecond granularity (a well-formed Date's time
value is integral and in range, so `timeClip` fixes it and the round trip is
bit-exact). Proved for both implementations. -/
theorem claim_C1_roundtrip (v : Value) (h : Wf v = true) :
    ImplA.serialize v = some (ImplA.enc v) ∧
    ImplA.deserialize (ImplA.enc v) = .ok (normalize v) ∧
    ImplB.serialize v = some (ImplB.enc v) ∧
    ImplB.deserialize (ImplB.enc v) = .ok (normalize v) :=
  ⟨ImplA.serialize_enc v, ImplA.deserialize_serialize v h,
   ImplB.serialize_encB v, ImplB.deserialize_serializeB v h⟩

/-- Witness for C1 at a concrete object containing an `undefined`, a Date,
a nested array with a number, boolean and string, and a Uint16Array. -/
theorem claim_C1_roundtrip_witness :
    Wf (Value.obj [([97], .undef), ([98], .date 0),
      ([65], .arr [.num (2^62), .bool true, .str [0x20AC]]),
      ([66], .tarr .u16 [1, 2, 3, 4])]) = true ∧
    (ImplA.serialize (Value.obj [([97], .undef), ([98], .date 0),
        ([65], .arr [.num (2^62), .bool true, .str [0x20AC]]),
        ([66], .tarr .u16 [1, 2, 3, 4])]) =
      some (ImplA.enc (Value.obj [([97], .undef), ([98], .date 0),
        ([65], .arr [.num (2^62), .bool true, .str [0x20AC]]),
        ([66], .tarr .u16 [1, 2, 3, 4])])) ∧
     ImplA.deserialize (ImplA.enc (Value.obj [([97], .undef), ([98], .date 0),
        ([65], .arr [.num (2^62), .bool true, .str [0x20AC]]),
        ([66], .tarr .u16 [1, 2, 3, 4])])) =
      .ok (normalize (Value.obj [([97], .undef), ([98], .date 0),
        ([65], .arr [.num (2^62), .bool true, .str [0x20AC]]),
        ([66], .tarr .u16 [1, 2, 3, 4])])) ∧
     ImplB.serialize (Value.obj [([97], .undef), ([98], .date 0),
        ([65], .arr [.num (2^62), .bool true, .str [0x20AC]]),
        ([66], .tarr .u16 [1, 2, 3, 4])]) =
      some (ImplB.enc (Value.obj [([97], .undef), ([98], .date 0),
        ([65], .arr [.num (2^62), .bool true, .str [0x20AC]]),
        ([66], .tarr .u16 [1, 2, 3, 4])])) ∧
     ImplB.deserialize (ImplB.enc (Value.obj [([97], .undef), ([98], .date 0),
        ([65], .arr [.num (2^62), .bool true, .str [0x20AC]]),
        ([66], .tarr .u16 [1, 2, 3, 4])])) =
      .ok (normalize (Value.obj [([97], .undef), ([98], .date 0),
        ([65], .arr [.num (2^62), .bool true, .str [0x20AC]]),
        ([66], .tarr .u16 [1, 2, 3, 4])]))) :=
  ⟨by decide, claim_C1_roundtrip _ (by decide)⟩

/-- Claim C2: the byte length of the serialized buffer equals the size
prediction — impl A's `createChunk(v).byteLength` and impl B's
`calculateSize(createChunk(v))` — and writing the chunk tree from offset 0
into the exactly-sized buffer returns that same size as its final offset, so
the single allocation suffices. -/
theorem claim_C2_exact_size (v : Value) :
    ImplA.serialize v = some (ImplA.enc v) ∧
    (ImplA.enc v).length = (ImplA.createChunk v).byteLength ∧
    ImplA.writeChunk (ImplA.createChunk v)
      (List.replicate (ImplA.createChunk v).byteLength 0) 0 =
      some (ImplA.enc v, (ImplA.createChunk v).byteLength) ∧
    ImplB.serialize v = some (ImplB.enc v) ∧
    (ImplB.enc v).length = ImplB.calculateSize (ImplB.createChunk v) ∧
    ImplB.writeChunk (ImplB.createChunk v)
      (List.replicate (ImplB.calculateSize (ImplB.createChunk v)) 0) 0 =
      some (ImplB.enc v, ImplB.calculateSize (ImplB.createChunk v)) := by
  refine ⟨ImplA.serialize_enc v, (ImplA.enc_length v), ?_,
    ImplB.serialize_encB v, (ImplB.calcSize_enc v).symm, ?_⟩
  · have hw := ImplA.write_enc v
      (List.replicate (ImplA.createChunk v).byteLength 0) 0
      (by simp [ImplA.enc_length])
    rw [hw]
    rw [splice_all (ImplA.enc v) (ImplA.createChunk v).byteLength
      (ImplA.enc_length v)]
    rw [Nat.zero_add, ImplA.enc_length v]
  · have hw := ImplB.write_encB v
      (List.replicate (ImplB.calculateSize (ImplB.createChunk v)) 0) 0
      (by simp [ImplB.calcSize_enc])
    rw [hw]
    rw [splice_all (ImplB.enc v) (ImplB.calculateSize (ImplB.createChunk v))
      (ImplB.calcSize_enc v).symm]
    rw [Nat.zero_add, ImplB.calcSize_enc v]

/-- Counterexample to claim C3 as stated: impl A's `deserialize` has no
empty-buffer check; on the empty buffer it fails with the platform bounds
RangeError of `getUint8`, not with a distinguished EmptyInput error. -/
theorem claim_C3_counterexample :
    ImplA.deserialize [] = .error DecodeError.rangeError ∧
    ImplA.deserialize [] ≠ .error DecodeError.emptyInput := by
  decide

/-- Claim C3 as amended: decoding the empty buffer never returns a value in
either implementation; impl B fails with the explicit EmptyInput error, while
impl A fails with an out-of-bounds RangeError. -/
theorem claim_C3_empty :
    ImplB.deserialize [] = .error DecodeError.emptyInput ∧
    ImplA.deserialize [] = .error DecodeError.rangeError := by
  decide

/-- Counterexample to claim C4 as stated: tag byte 5 is not registered in
impl A's table, yet impl A's `deserialize` silently decodes the buffer `[5]`
to `null` instead of failing with UnknownTypeTag. -/
theorem claim_C4_counterexample :
    (5 : Nat) ∉ registeredTagsA ∧
    ImplA.deserialize [5] = .ok Value.null := by
  decide

/-- Claim C4 as amended: impl B raises UnknownTypeTag for an unregistered
first tag byte provided at least four more bytes follow (its reader reads the
4-byte length before checking the tag; with fewer bytes, as in `[200]`, it
fails with a bounds RangeError instead); impl A never raises UnknownTypeTag —
unregistered single-byte tags such as 0 and 5..10 silently decode to `null`. -/
theorem claim_C4_unknown_tag :
    (∀ t bs, t < 256 → t ∉ registeredTagsB → 4 ≤ bs.length →
      ImplB.deserialize (t :: bs) = .error (.unknownTypeTag t)) ∧
    (∀ t, t ∈ [0, 5, 6, 7, 8, 9, 10] →
      ImplA.deserialize [t] = .ok Value.null) ∧
    ImplB.deserialize [200] = .error DecodeError.rangeError := by
  refine ⟨?_, ?_, by decide⟩
  · intro t bs ht hmem hlen
    match bs, hlen with
    | b1 :: b2 :: b3 :: b4 :: rest, _ =>
      show (if (t :: b1 :: b2 :: b3 :: b4 :: rest).length = 0 then
          Except.error DecodeError.emptyInput
        else (ImplB.readChunk ((t :: b1 :: b2 :: b3 :: b4 :: rest).length + 1)
            (t :: b1 :: b2 :: b3 :: b4 :: rest) 0).bind
          (fun r => Except.ok r.value)) = _
      rw [if_neg (by simp)]
      rw [ImplB.readChunk_succB]
      have g0 : getU8 (t :: b1 :: b2 :: b3 :: b4 :: rest) 0 = Except.ok t := by
        simp [getU8]
      rw [g0, ok_bind]
      rw [readTaggedB_unknown _ _ t _ hmem]
      have g32 : getU32 (t :: b1 :: b2 :: b3 :: b4 :: rest) 1 =
          Except.ok (b1 * 2^24 + b2 * 2^16 + b3 * 2^8 + b4) := by
        have g := getU32_cons [t] b1 b2 b3 b4 rest
        simpa using g
      rw [g32, ok_bind, err_bind]
  · intro t ht
    fin_cases ht <;> decide

/-- Witness for the amended C4 at tag 200 with a 4-byte tail (impl B) and at
tag 6 (impl A). -/
theorem claim_C4_unknown_tag_witness :
    (200 : Nat) < 256 ∧ (200 : Nat) ∉ registeredTagsB ∧
    4 ≤ ([0, 0, 0, 0] : List Nat).length ∧
    ImplB.deserialize [200, 0, 0, 0, 0] = .error (.unknownTypeTag 200) ∧
    (6 : Nat) ∈ [0, 5, 6, 7, 8, 9, 10] ∧
    ImplA.deserialize [6] = .ok Value.null :=
  ⟨by decide, by decide, by decide,
   claim_C4_unknown_tag.1 200 [0, 0, 0, 0] (by decide) (by decide) (by decide),
   by decide,
   claim_C4_unknown_tag.2.1 6 (by decide)⟩

/-- Claim C5: `serialize` never fails — it returns a buffer for every value
of the domain, including `undefined` and function values — and `null`,
`undefined` and function values all produce exactly the one-byte Null
encoding `[0x01]`, in both implementations. -/
theorem claim_C5_total :
    (∀ v : Value, (ImplA.serialize v).isSome = true ∧
      (ImplB.serialize v).isSome = true) ∧
    ImplA.serialize .null = some [1] ∧
    ImplA.serialize .undef = some [1] ∧
    ImplA.serialize .func = some [1] ∧
    ImplB.serialize .null = some [1] ∧
    ImplB.serialize .undef = some [1] ∧
    ImplB.serialize .func = some [1] := by
  refine ⟨fun v => ⟨?_, ?_⟩, by decide, by decide, by decide,
    by decide, by decide, by decide⟩
  · rw [ImplA.serialize_enc v]
    rfl
  · rw [ImplB.serialize_encB v]
    rfl

/-- Claim C6: the Boolean payload byte is exactly 0xFF for true and 0x00 for
false in both implementations, and multi-byte scalar fields are big-endian:
the Number/Date double is written most-significant byte first, and the 4-byte
length prefix of a 2-byte string is `00 00 00 02`. -/
theorem claim_C6_bytes :
    ImplA.serialize (.bool true) = some [2, 0xFF] ∧
    ImplA.serialize (.bool false) = some [2, 0x00] ∧
    ImplB.serialize (.bool true) = some [2, 0xFF] ∧
    ImplB.serialize (.bool false) = some [2, 0x00] ∧
    (∀ bits : Nat, ImplA.serialize (.num bits) = some
      (3 :: [bits / 2^56 % 256, bits / 2^48 % 256, bits / 2^40 % 256,
        bits / 2^32 % 256, bits / 2^24 % 256, bits / 2^16 % 256,
        bits / 2^8 % 256, bits % 256])) ∧
    (∀ bits : Nat, ImplB.serialize (.date bits) = some
      (4 :: [bits / 2^56 % 256, bits / 2^48 % 256, bits / 2^40 % 256,
        bits / 2^32 % 256, bits / 2^24 % 256, bits / 2^16 % 256,
        bits / 2^8 % 256, bits % 256])) ∧
    ImplA.serialize (.str [104, 105]) = some [21, 0, 0, 0, 2, 104, 105] ∧
    ImplB.serialize (.str [104, 105]) = some [5, 0, 0, 0, 2, 104, 105] := by
  refine ⟨by decide, by decide, by decide, by decide, ?_, ?_, by decide,
    by decide⟩
  · intro bits
    rw [ImplA.serialize_enc]
    show some (ImplA.TYPES.Number :: beBytes 8 bits) = _
    rw [beBytes_eight]
    rfl
  · intro bits
    rw [ImplB.serialize_encB]
    show some (ImplB.TYPES.Date :: beBytes 8 bits) = _
    rw [beBytes_eight]
    rfl

/-- Claim C7: a well-formed object serializes to the Object tag, the 4-byte
pair count, then for each entry a String key chunk immediately followed by
the value chunk (`encP`), the declared count equals the number of key/value
pairs, and deserializing reproduces an object whose keys are in the original
entry order. -/
theorem claim_C7_objects (kvs : List (List Nat × Value))
    (h : Wf (.obj kvs) = true) :
    ImplA.serialize (.obj kvs) =
      some (ImplA.TYPES.Object :: (beBytes 4 kvs.length ++ ImplA.encP kvs)) ∧
    ImplA.deserialize
      (ImplA.TYPES.Object :: (beBytes 4 kvs.length ++ ImplA.encP kvs)) =
      .ok (.obj (normalizeP kvs)) ∧
    ImplB.serialize (.obj kvs) =
      some (ImplB.TYPES.Object :: (beBytes 4 kvs.length ++ ImplB.encP kvs)) ∧
    ImplB.deserialize
      (ImplB.TYPES.Object :: (beBytes 4 kvs.length ++ ImplB.encP kvs)) =
      .ok (.obj (normalizeP kvs)) ∧
    (ImplA.createChunk (.obj kvs)).length = kvs.length ∧
    (ImplB.createChunk (.obj kvs)).length = kvs.length ∧
    (normalizeP kvs).map Prod.fst = kvs.map Prod.fst := by
  have hA := ImplA.deserialize_serialize (.obj kvs) h
  have hB := ImplB.deserialize_serializeB (.obj kvs) h
  refine ⟨ImplA.serialize_enc (.obj kvs), hA, ImplB.serialize_encB (.obj kvs),
    hB, rfl, ImplB.obj_chunk_length kvs, normalizeP_keys kvs⟩

/-- Witness for C7 at a two-entry object. -/
theorem claim_C7_objects_witness :
    Wf (Value.obj [([97], .bool true), ([98], .null)]) = true ∧
    (ImplA.serialize (.obj [([97], .bool true), ([98], .null)]) =
      some (ImplA.TYPES.Object :: (beBytes 4 2 ++
        ImplA.encP [([97], .bool true), ([98], .null)])) ∧
     ImplA.deserialize (ImplA.TYPES.Object :: (beBytes 4 2 ++
        ImplA.encP [([97], .bool true), ([98], .null)])) =
      .ok (.obj (normalizeP [([97], .bool true), ([98], .null)])) ∧
     ImplB.serialize (.obj [([97], .bool true), ([98], .null)]) =
      some (ImplB.TYPES.Object :: (beBytes 4 2 ++
        ImplB.encP [([97], .bool true), ([98], .null)])) ∧
     ImplB.deserialize (ImplB.TYPES.Object :: (beBytes 4 2 ++
        ImplB.encP [([97], .bool true), ([98], .null)])) =
      .ok (.obj (normalizeP [([97], .bool true), ([98], .null)])) ∧
     (ImplA.createChunk (.obj [([97], .bool true), ([98], .null)])).length = 2 ∧
     (ImplB.createChunk (.obj [([97], .bool true), ([98], .null)])).length = 2 ∧
     (normalizeP [([97], .bool true), ([98], .null)]).map Prod.fst =
       [([97], Value.bool true), ([98], Value.null)].map Prod.fst) :=
  ⟨by decide, claim_C7_objects [([97], .bool true), ([98], .null)] (by decide)⟩

/-- Claim C8: the two implementations use incompatible tag tables (impl A:
Null=1, typed arrays 11..18, String=21, Array=22, Object=23; impl B: Null=1
through Object=7 with typed arrays 10..17), and consequently their serialized
buffers differ on strings, arrays and objects: they are not wire-equivalent. -/
theorem claim_C8_incompatible :
    ImplA.TYPES.Null = 1 ∧ ImplA.TYPES.Int8Array = 11 ∧
    ImplA.TYPES.Float64Array = 18 ∧ ImplA.TYPES.String = 21 ∧
    ImplA.TYPES.Array = 22 ∧ ImplA.TYPES.Object = 23 ∧
    ImplB.TYPES.Null = 1 ∧ ImplB.TYPES.String = 5 ∧
    ImplB.TYPES.Array = 6 ∧ ImplB.TYPES.Object = 7 ∧
    ImplB.TYPES.Int8Array = 10 ∧ ImplB.TYPES.Float64Array = 17 ∧
    ImplA.serialize (.str [104, 105]) ≠ ImplB.serialize (.str [104, 105]) ∧
    ImplA.serialize (.arr []) ≠ ImplB.serialize (.arr []) ∧
    ImplA.serialize (.obj []) ≠ ImplB.serialize (.obj []) ∧
    ImplA.serialize (.tarr .u8 [7]) ≠ ImplB.serialize (.tarr .u8 [7]) := by
  decide

/-- Claim C9: both decoders accept any nonzero Boolean payload byte as true
(and 0x00 as false): the wire-canonical 0xFF is not required. -/
theorem claim_C9_nonzero_bool (b : Nat) (h1 : b < 256) (h2 : b ≠ 0) :
    ImplA.deserialize [2, b] = .ok (.bool true) ∧
    ImplB.deserialize [2, b] = .ok (.bool true) ∧
    ImplA.deserialize [2, 0] = .ok (.bool false) ∧
    ImplB.deserialize [2, 0] = .ok (.bool false) := by
  have hb : (b != 0) = true := by
    simpa using h2
  refine ⟨?_, ?_, by decide, by decide⟩
  · show (ImplA.readChunk ([2, b].length + 1) [2, b] 0).bind
      (fun c => Except.ok c.value) = _
    rw [ImplA.readChunk_succ]
    have g0 : getU8 [2, b] 0 = Except.ok 2 := by
      simp [getU8]
    rw [g0, ok_bind, ImplA.readTagged_bool]
    have g1 : getU8 [2, b] 1 = Except.ok b := by
      simp [getU8]
    rw [g1, ok_bind, ok_bind]
    show Except.ok (Value.bool (b != 0)) = _
    rw [hb]
  · show (if ([2, b] : List Nat).length = 0 then
        Except.error DecodeError.emptyInput
      else (ImplB.readChunk ([2, b].length + 1) [2, b] 0).bind
        (fun r => Except.ok r.value)) = _
    rw [if_neg (by simp)]
    rw [ImplB.readChunk_succB]
    have g0 : getU8 [2, b] 0 = Except.ok 2 := by
      simp [getU8]
    rw [g0, ok_bind, ImplB.readTagged_boolB]
    have g1 : getU8 [2, b] 1 = Except.ok b := by
      simp [getU8]
    rw [g1, ok_bind, ok_bind]
    show Except.ok (Value.bool (b != 0)) = _
    rw [hb]

/-- Witness for C9 at payload byte 0x7F. -/
theorem claim_C9_nonzero_bool_witness :
    (127 : Nat) < 256 ∧ (127 : Nat) ≠ 0 ∧
    (ImplA.deserialize [2, 127] = .ok (.bool true) ∧
     ImplB.deserialize [2, 127] = .ok (.bool true) ∧
     ImplA.deserialize [2, 0] = .ok (.bool false) ∧
     ImplB.deserialize [2, 0] = .ok (.bool false)) :=
  ⟨by decide, by decide, claim_C9_nonzero_bool 127 (by decide) (by decide)⟩

/-- Claim C10: trailing bytes are ignored, never an error: decoding a
serialized value with any byte suffix appended returns exactly what decoding
the unsuffixed buffer returns (the reader parses one chunk from offset 0 and
the top-level call discards the final cursor), in both implementations. -/
theorem claim_C10_trailing (v : Value) (h : Wf v = true) (s : List Nat) :
    ImplA.serialize v = some (ImplA.enc v) ∧
    ImplA.deserialize (ImplA.enc v ++ s) = ImplA.deserialize (ImplA.enc v) ∧
    ImplA.deserialize (ImplA.enc v ++ s) = .ok (normalize v) ∧
    ImplB.serialize v = some (ImplB.enc v) ∧
    ImplB.deserialize (ImplB.enc v ++ s) = ImplB.deserialize (ImplB.enc v) ∧
    ImplB.deserialize (ImplB.enc v ++ s) = .ok (normalize v) := by
  have hA1 := ImplA.deserialize_enc_suffix v h s
  have hA2 := ImplA.deserialize_serialize v h
  have hB1 := ImplB.deserialize_enc_suffixB v h s
  have hB2 := ImplB.deserialize_serializeB v h
  exact ⟨ImplA.serialize_enc v, by rw [hA1, hA2], hA1,
    ImplB.serialize_encB v, by rw [hB1, hB2], hB1⟩

/-- Witness for C10 at a one-element array with two junk trailing bytes. -/
theorem claim_C10_trailing_witness :
    Wf (Value.arr [.bool false]) = true ∧
    (ImplA.serialize (.arr [.bool false]) =
      some (ImplA.enc (.arr [.bool false])) ∧
     ImplA.deserialize (ImplA.enc (.arr [.bool false]) ++ [255, 1]) =
      ImplA.deserialize (ImplA.enc (.arr [.bool false])) ∧
     ImplA.deserialize (ImplA.enc (.arr [.bool false]) ++ [255, 1]) =
      .ok (normalize (.arr [.bool false])) ∧
     ImplB.serialize (.arr [.bool false]) =
      some (ImplB.enc (.arr [.bool false])) ∧
     ImplB.deserialize (ImplB.enc (.arr [.bool false]) ++ [255, 1]) =
      ImplB.deserialize (ImplB.enc (.arr [.bool false])) ∧
     ImplB.deserialize (ImplB.enc (.arr [.bool false]) ++ [255, 1]) =
      .ok (normalize (.arr [.bool false]))) :=
  ⟨by decide, claim_C10_trailing (.arr [.bool false]) (by decide) [255, 1]⟩

end Torm

